import Mathlib

/-! The program dup-delete: a verification development of `main.go`.

`main.go` walks a directory tree, hands every regular file to a pool of digest
goroutines (`digestFunc`), collects the digested records in one aggregator
goroutine (`compareFuc`) into the map `dupFiles`, and, after both have drained,
runs the resolution loop that keeps one record per digest and removes (or, in
dry-run mode, only reports) the others.

The embedding is shallow: every goroutine body becomes a function on an explicit
state, channels become lists of the values sent on them (oldest first), and the
two sources of nondeterminism of the Go runtime, the order in which the workers'
sends reach `compareCh` and the order in which `range dupFiles` visits the map,
are explicit parameters (`Sched`).
-/

namespace DupDelete

/-! ## Data model -/

/-- The struct `FileID` of `main.go`. `size` is the `int64` of `info.Size()`;
`modTime` is the instant of the `time.Time` of `info.ModTime()`, as an integer
count of time units, so that `a.modTime.After(b.modTime)` is `b.modTime < a.modTime`. -/
structure FileID where
  path : String
  md5 : String
  size : Int
  modTime : Int
deriving DecidableEq, Repr

/-- The method `time.Time.After` on the modification times of two records. -/
def after (a b : FileID) : Bool :=
  decide (b.modTime < a.modTime)

/-! ## `sort.SliceStable`

`sort.SliceStable` belongs to the Go standard library. On a slice of at most 20
elements it runs the insertion sort below; on a longer slice it insertion-sorts
blocks of 20 elements and then merges neighbouring blocks with the stable
`symMerge`. Lemma `stable_sort_unique` shows that the result of a stable sort is
fixed by the comparator, so the insertion sort denotes the result at every length. -/

/-- The inner loop of Go's `insertionSort`,
`for j := i; j > a && less(j, j-1); j-- { swap(j, j-1) }`, on the already sorted
prefix held in reverse (`y` is the element just left of the one being sunk). -/
def sink {α : Type} (less : α → α → Bool) (x : α) : List α → List α
  | [] => [x]
  | y :: rev => if less x y then y :: sink less x rev else x :: y :: rev

/-- The outer loop of Go's `insertionSort`: element after element is sunk into the
sorted prefix; `rev` is that prefix in reverse. -/
def insertionSortRev {α : Type} (less : α → α → Bool) : List α → List α → List α
  | rev, [] => rev
  | rev, x :: rest => insertionSortRev less (sink less x rev) rest

/-- The result of `sort.SliceStable(data, less)`. -/
def sortSliceStable {α : Type} (less : α → α → Bool) (data : List α) : List α :=
  (insertionSortRev less [] data).reverse

/-! ## The aggregator `compareFuc` and the map `dupFiles` -/

/-- The Go map `map[string][]*FileID`: a list of key/value entries with pairwise
distinct keys. The order of the entries carries no meaning (Go leaves the
iteration order of a map unspecified). -/
abbrev DupIndex := List (String × List FileID)

/-- The map read `dupFiles[k]`: the stored slice, or the nil slice for an absent key. -/
def mapGet (m : DupIndex) (k : String) : List FileID :=
  match m with
  | [] => []
  | (k', v) :: rest => if k' = k then v else mapGet rest k

/-- The map write `dupFiles[k] = v`. -/
def mapSet (m : DupIndex) (k : String) (v : List FileID) : DupIndex :=
  match m with
  | [] => [(k, v)]
  | (k', v') :: rest => if k' = k then (k, v) :: rest else (k', v') :: mapSet rest k v

/-- One iteration of the loop of `compareFuc`:
`dupFiles[f.md5] = append(dupFiles[f.md5], f)`. -/
def compareStep (dupFiles : DupIndex) (f : FileID) : DupIndex :=
  mapSet dupFiles f.md5 (mapGet dupFiles f.md5 ++ [f])

/-- The goroutine `compareFuc` run on the records `ch` received on `compareCh`
(oldest first) until the channel is closed and drained. -/
def compareFuc (dupFiles : DupIndex) (ch : List FileID) : DupIndex :=
  ch.foldl compareStep dupFiles

/-- The keys of the map. -/
def mapKeys (m : DupIndex) : List String :=
  m.map Prod.fst

/-- The sum of the bucket sizes of the map. -/
def totalRecords (m : DupIndex) : Nat :=
  (m.map (fun e => e.2.length)).sum

/-! ## The file system and the log -/

/-- One line written by `log.Printf`, named after the call site in `main.go`. -/
inductive LogLine where
  /-- Line 40: "dry run mode, not really delete files". -/
  | dryRunMode
  /-- Line 57: "md5sum %s". -/
  | md5sum (path : String)
  /-- Line 62: "open file error: %v" (the error of `os.Open` names the path). -/
  | openError (path : String)
  /-- Line 69: "read file: %s error: %v". -/
  | readError (path : String)
  /-- Line 73: "%s read %d bytes, but file size is: %d". -/
  | sizeMismatch (path : String) (bytes size : Int)
  /-- Line 112: "walk error: %v". -/
  | walkError (err : String)
  /-- Line 118: "digest done". -/
  | digestDone
  /-- Line 124: "compare done". -/
  | compareDone
  /-- Line 140: "delete error md5: %s, file: %s err: %v". -/
  | deleteError (md5sum path : String)
  /-- Line 143: "delete md5: %s, file: %s dup: %d". -/
  | delete (md5sum path : String) (dup : Nat)
deriving DecidableEq, Repr

/-- Whether a log line reports a deletion or a failed deletion (lines 140 and 143). -/
def LogLine.isDelete : LogLine → Bool
  | LogLine.delete _ _ _ => true
  | LogLine.deleteError _ _ => true
  | _ => false

/-- A regular file on disk, as the calls `os.Open`, `io.Copy` and `os.Remove` of
`main.go` see it: `content` are the bytes `io.Copy` delivers, `size` and `modTime`
what `Lstat` reports, and the three flags say whether opening, reading to the end
and removing the file fail. -/
structure DiskFile where
  path : String
  content : List Nat
  size : Int
  modTime : Int
  openErr : Bool
  readErr : Bool
  removeErr : Bool
deriving DecidableEq, Repr

/-- The regular files on disk. -/
abbrev Disk := List DiskFile

/-- The call `os.Open(path)`: the file behind the new handle, or `none` when the
call returns an error (no such file, or the file refuses to open). -/
def osOpen (disk : Disk) (path : String) : Option DiskFile :=
  match disk.find? (fun d => d.path = path) with
  | none => none
  | some d => if d.openErr then none else some d

/-- The call `os.Remove(path)`: the disk afterwards, and whether the call returned
an error (no such file, or the file refuses to be removed), in which case the disk
is unchanged. -/
def osRemove (disk : Disk) (path : String) : Disk × Bool :=
  match disk.find? (fun d => d.path = path) with
  | none => (disk, true)
  | some d => if d.removeErr then (disk, true) else (disk.filter (fun e => e.path ≠ path), false)

/-! ## The digest worker `digestFunc` -/

/-- The state of one digest goroutine: the records it has sent on `out`, the
handles it holds open, the number of the next handle `os.Open` will hand out, and
the lines it has logged. -/
structure Worker where
  out : List FileID
  openFiles : List Nat
  nextFd : Nat
  log : List LogLine
deriving DecidableEq, Repr

/-- A goroutine that has just been started. -/
def Worker.start : Worker :=
  { out := [], openFiles := [], nextFd := 0, log := [] }

/-- One iteration of the loop of `digestFunc` for the record `f` received on `ch`.
`md5hex` is `fmt.Sprintf("%x", digest.Sum(nil))` as a function of the bytes copied
into the digest. -/
def digestStep (md5hex : List Nat → String) (verbose : Bool) (disk : Disk)
    (w : Worker) (f : FileID) : Worker :=
  let w := if verbose then { w with log := w.log ++ [LogLine.md5sum f.path] } else w
  match osOpen disk f.path with
  | none => { w with log := w.log ++ [LogLine.openError f.path] }
  | some d =>
    let fd := w.nextFd
    let w := { w with openFiles := w.openFiles ++ [fd], nextFd := fd + 1 }
    if d.readErr then
      { w with log := w.log ++ [LogLine.readError f.path] }
    else
      let bytes : Int := d.content.length
      let w := if bytes ≠ f.size then
          { w with log := w.log ++ [LogLine.sizeMismatch f.path bytes f.size] }
        else w
      let f := { f with md5 := md5hex d.content }
      let w := { w with openFiles := w.openFiles.erase fd }
      { w with out := w.out ++ [f] }

/-- What one iteration of the loop of `digestFunc` sends on `out` for the record `f`:
nothing when `os.Open` or `io.Copy` returns an error, else `f` with its `md5` field set
(lemma `digestStep_out`). -/
def forwarded (md5hex : List Nat → String) (disk : Disk) (f : FileID) : Option FileID :=
  match osOpen disk f.path with
  | none => none
  | some d => if d.readErr then none else some { f with md5 := md5hex d.content }

/-- The goroutine `digestFunc` run on the records `ch` received on its input channel
(oldest first) until the channel is closed and drained. -/
def digestFunc (md5hex : List Nat → String) (verbose : Bool) (disk : Disk)
    (w : Worker) (ch : List FileID) : Worker :=
  ch.foldl (digestStep md5hex verbose disk) w

/-! ## The tree walk -/

/-- The part of `os.FileInfo` that `main.go` reads. -/
structure FileInfo where
  isDir : Bool
  size : Int
  modTime : Int
deriving DecidableEq, Repr

/-- One invocation `fn(path, info, err)` of the walk callback by `filepath.Walk`.
`info = none` is the nil `FileInfo` that `filepath.Walk` passes when `Lstat` on the
path failed; a directory that cannot be listed is reported with its `FileInfo` and a
non-nil `err`. -/
structure WalkItem where
  path : String
  info : Option FileInfo
  err : Option String
deriving DecidableEq, Repr

/-- What one invocation of the walk callback does. -/
inductive Callback where
  /-- The callback dereferences a nil `FileInfo`: the program panics. -/
  | panic
  /-- The callback sends on `digestCh` while no digest goroutine exists: the send
  never completes. -/
  | blocked
  /-- The callback returns `err` after sending `sent` on `digestCh`. -/
  | ret (sent : List FileID) (err : Option String)
deriving DecidableEq, Repr

/-- The callback passed to `filepath.Walk` (lines 104 to 109). It never looks at its
`err` argument and returns nil on every path. -/
def walkFn (workerCount : Int) (it : WalkItem) : Callback :=
  match it.info with
  | none => Callback.panic
  | some info =>
    if !info.isDir then
      if workerCount ≤ 0 then Callback.blocked
      else Callback.ret [{ path := it.path, md5 := "", size := info.size, modTime := info.modTime }] none
    else Callback.ret [] none

/-- How the call of `filepath.Walk` ends. -/
inductive WalkResult where
  | panicked
  | blocked
  | returned (sent : List FileID) (err : Option String)
deriving DecidableEq, Repr

/-- The call `filepath.Walk(rootPath, fn)`, a function of the library: `items` are the
invocations of the callback the walk makes as long as the callback returns nil, in
order; the walk stops at the first error the callback returns and returns it.
`sent` collects what the callback has sent on `digestCh`. -/
def filepathWalk (fn : WalkItem → Callback) : List WalkItem → List FileID → WalkResult
  | [], sent => WalkResult.returned sent none
  | it :: rest, sent =>
    match fn it with
    | Callback.panic => WalkResult.panicked
    | Callback.blocked => WalkResult.blocked
    | Callback.ret s (some e) => WalkResult.returned (sent ++ s) (some e)
    | Callback.ret s none => filepathWalk fn rest (sent ++ s)

/-! ## The resolution loop -/

/-- The state the resolution loop works on: the disk, the paths `os.Remove` has been
called on (oldest first), and the log. -/
structure World where
  disk : Disk
  removeCalls : List String
  log : List LogLine
deriving DecidableEq, Repr

/-- The body of the inner loop (lines 137 to 143) for `file := files[i]`. -/
def removeStep (dryRun : Bool) (md5sum : String) (dup : Nat) (w : World) (file : FileID) : World :=
  let w :=
    if !dryRun then
      match osRemove w.disk file.path with
      | (disk, true) =>
        { disk := disk, removeCalls := w.removeCalls ++ [file.path],
          log := w.log ++ [LogLine.deleteError md5sum file.path] }
      | (disk, false) =>
        { disk := disk, removeCalls := w.removeCalls ++ [file.path], log := w.log }
    else w
  { w with log := w.log ++ [LogLine.delete md5sum file.path dup] }

/-- The bucket after `sort.SliceStable(files, func(i, j) { files[i].modTime.After(files[j].modTime) })`. -/
def sortedBucket (files : List FileID) : List FileID :=
  sortSliceStable after files

/-- The deletion candidates of a bucket: the records `files[i]` that the loop
`for i := 0; i < len(files)-1; i++` visits after the sort, in that order. -/
def candidates (files : List FileID) : List FileID :=
  (sortedBucket files).take ((sortedBucket files).length - 1)

/-- The record of a bucket the loop does not visit: `files[len(files)-1]` after the sort. -/
def survivor (files : List FileID) : Option FileID :=
  (sortedBucket files).getLast?

/-- The candidates of all buckets, in the order the loop over `dupFiles` visits them. -/
def allCandidates (dupFiles : DupIndex) : List FileID :=
  dupFiles.flatMap (fun e => candidates e.2)

/-- The body of the outer loop (lines 128 to 144) for one map entry. -/
def resolveBucket (dryRun : Bool) (w : World) (entry : String × List FileID) : World :=
  if entry.2.length = 1 then w
  else (candidates entry.2).foldl (removeStep dryRun entry.1 (sortedBucket entry.2).length) w

/-- The loop `for md5sum, files := range dupFiles` (lines 127 to 145), visiting the
entries in the order of the list `dupFiles`. -/
def resolutionPass (dryRun : Bool) (dupFiles : DupIndex) (w : World) : World :=
  dupFiles.foldl (resolveBucket dryRun) w

/-! ## The program -/

/-- The two choices the Go runtime makes: the order in which the records sent by the
digest goroutines reach the aggregator, and the order in which `range dupFiles`
visits the entries of the map. -/
structure Sched where
  arrival : List FileID → List FileID
  range : DupIndex → DupIndex

/-- A schedule only reorders: it neither drops nor invents a record or a map entry.
Every run of the program is the run of such a schedule (with few goroutines not
every such schedule is a run of the program). -/
def Sched.Fair (s : Sched) : Prop :=
  (∀ l, (s.arrival l).Perm l) ∧ (∀ m, (s.range m).Perm m)

/-- The schedule of a run in which every record is forwarded before the next one is
taken, and the map is visited in insertion order of its keys. -/
def Sched.inOrder : Sched :=
  { arrival := fun l => l, range := fun m => m }

/-- How a run of `main` ends. -/
inductive Outcome where
  /-- The walk callback dereferenced a nil `FileInfo`. -/
  | panicked
  /-- The walk callback sends on `digestCh`, and no goroutine will ever receive. -/
  | deadlocked
  /-- Lines 111 to 114: `filepath.Walk` returned an error; `main` logs it and returns. -/
  | walkError (err : String)
  /-- The resolution loop has run: `dupFiles` is the map the aggregator built, `w` the
  state the loop leaves. -/
  | completed (dupFiles : DupIndex) (w : World)
deriving DecidableEq, Repr

/-- The function `main`, after flag parsing. The digest goroutines are folded into one
run of `digestFunc` over everything sent on `digestCh`, whose forwarded records reach
the aggregator in the order the schedule chooses. -/
def mainRun (md5hex : List Nat → String) (sched : Sched) (dryRun verbose : Bool)
    (workerCount : Int) (walk : List WalkItem) (disk : Disk) : Outcome :=
  let log := if dryRun then [LogLine.dryRunMode] else []
  match filepathWalk (walkFn workerCount) walk [] with
  | WalkResult.panicked => Outcome.panicked
  | WalkResult.blocked => Outcome.deadlocked
  | WalkResult.returned _ (some err) => Outcome.walkError err
  | WalkResult.returned sent none =>
    let pool := digestFunc md5hex verbose disk Worker.start sent
    let log := log ++ pool.log ++ (if verbose then [LogLine.digestDone] else [])
    let dupFiles := compareFuc [] (sched.arrival pool.out)
    let log := log ++ (if verbose then [LogLine.compareDone] else [])
    Outcome.completed dupFiles
      (resolutionPass dryRun (sched.range dupFiles) { disk := disk, removeCalls := [], log := log })

/-- The callback invocation `filepath.Walk` makes for the regular file `d`. -/
def walkItem (d : DiskFile) : WalkItem :=
  { path := d.path, info := some { isDir := false, size := d.size, modTime := d.modTime },
    err := none }

/-- The walk over a tree whose regular files are `disk` and that reports no error:
one callback invocation for the root directory, then one per file. -/
def walkOf (root : String) (disk : Disk) : List WalkItem :=
  { path := root, info := some { isDir := true, size := 0, modTime := 0 }, err := none } ::
    disk.map walkItem

/-- The record the walk callback sends on `digestCh` for the regular file `d`. -/
def walkRecord (d : DiskFile) : FileID :=
  { path := d.path, md5 := "", size := d.size, modTime := d.modTime }

/-- The record of the regular file `d` once digested. -/
def digested (md5hex : List Nat → String) (d : DiskFile) : FileID :=
  { path := d.path, md5 := md5hex d.content, size := d.size, modTime := d.modTime }

/-! ## Concrete inputs -/

/-- A stand-in for the digest on the example disks: equal content, equal digest. -/
def toyMd5 (content : List Nat) : String :=
  if content = [88] then "58" else if content = [89] then "59" else "00"

/-- The file `a.txt` of the scenario of the specification: content "X", time `T1 = 1`. -/
def fileA : DiskFile :=
  { path := "a.txt", content := [88], size := 1, modTime := 1,
    openErr := false, readErr := false, removeErr := false }

/-- The file `b.txt` of the scenario: content "X", time `T2 = 2`. -/
def fileB : DiskFile :=
  { path := "b.txt", content := [88], size := 1, modTime := 2,
    openErr := false, readErr := false, removeErr := false }

/-- The file `c.txt` of the scenario: content "Y", alone with its digest. -/
def fileC : DiskFile :=
  { path := "c.txt", content := [89], size := 1, modTime := 3,
    openErr := false, readErr := false, removeErr := false }

/-- A copy of `a.txt` that opens, and whose read fails before the end. -/
def fileBad : DiskFile :=
  { path := "bad.txt", content := [88], size := 1, modTime := 4,
    openErr := false, readErr := true, removeErr := false }

/-- A walk that meets a directory it cannot list: the callback is invoked for `sub` with
the `FileInfo` of the directory and a non-nil error. -/
def walkUnreadableDir : List WalkItem :=
  [ { path := ".", info := some { isDir := true, size := 0, modTime := 0 }, err := none },
    walkItem fileA, walkItem fileB,
    { path := "sub", info := some { isDir := true, size := 0, modTime := 0 },
      err := some "open sub: permission denied" } ]

/-- A walk whose root does not exist: `Lstat` fails and the callback is invoked once, with
a nil `FileInfo` and the error. -/
def walkMissingRoot : List WalkItem :=
  [ { path := "missing", info := none, err := some "lstat missing: no such file or directory" } ]

/-! ## Lemmas on `sort.SliceStable` -/

theorem sink_perm {α : Type} (less : α → α → Bool) (x : α) (rev : List α) :
    (sink less x rev).Perm (x :: rev) := by
  induction rev with
  | nil => simp [sink]
  | cons y rev ih =>
    simp only [sink]
    split
    · exact (List.Perm.cons y ih).trans (List.Perm.swap x y rev)
    · exact List.Perm.refl _

theorem insertionSortRev_perm {α : Type} (less : α → α → Bool) (l rev : List α) :
    (insertionSortRev less rev l).Perm (l ++ rev) := by
  induction l generalizing rev with
  | nil => simp [insertionSortRev]
  | cons x rest ih =>
    simp only [insertionSortRev]
    refine (ih (sink less x rev)).trans ?_
    refine (List.Perm.append_left rest (sink_perm less x rev)).trans ?_
    exact List.perm_middle

theorem sortSliceStable_perm {α : Type} (less : α → α → Bool) (l : List α) :
    (sortSliceStable less l).Perm l := by
  unfold sortSliceStable
  refine (List.reverse_perm _).trans ?_
  simpa using insertionSortRev_perm less l []

theorem sortSliceStable_length {α : Type} (less : α → α → Bool) (l : List α) :
    (sortSliceStable less l).length = l.length :=
  (sortSliceStable_perm less l).length_eq

theorem sink_ascending (x : FileID) (rev : List FileID)
    (h : rev.Pairwise (fun a b => a.modTime ≤ b.modTime)) :
    (sink after x rev).Pairwise (fun a b => a.modTime ≤ b.modTime) := by
  induction rev with
  | nil => simp [sink]
  | cons y rev ih =>
    rw [List.pairwise_cons] at h
    simp only [sink]
    split
    · rename_i hlt
      have hlt' : y.modTime < x.modTime := by simpa [after] using hlt
      rw [List.pairwise_cons]
      refine ⟨?_, ih h.2⟩
      intro z hz
      rcases List.mem_cons.1 ((sink_perm after x rev).mem_iff.1 hz) with rfl | hz'
      · exact le_of_lt hlt'
      · exact h.1 z hz'
    · rename_i hnlt
      have hle : x.modTime ≤ y.modTime := by
        have : ¬ y.modTime < x.modTime := by simpa [after] using hnlt
        exact not_lt.1 this
      rw [List.pairwise_cons]
      refine ⟨?_, List.pairwise_cons.2 h⟩
      intro z hz
      rcases List.mem_cons.1 hz with rfl | hz'
      · exact hle
      · exact le_trans hle (h.1 z hz')

theorem insertionSortRev_ascending (l rev : List FileID)
    (h : rev.Pairwise (fun a b => a.modTime ≤ b.modTime)) :
    (insertionSortRev after rev l).Pairwise (fun a b => a.modTime ≤ b.modTime) := by
  induction l generalizing rev with
  | nil => simpa [insertionSortRev] using h
  | cons x rest ih =>
    simp only [insertionSortRev]
    exact ih _ (sink_ascending x rev h)

/-- The sorted bucket is newest first: modification times never increase. -/
theorem sortedBucket_descending (files : List FileID) :
    (sortedBucket files).Pairwise (fun a b => b.modTime ≤ a.modTime) := by
  unfold sortedBucket sortSliceStable
  rw [List.pairwise_reverse]
  exact insertionSortRev_ascending files [] List.Pairwise.nil

theorem sink_filter (t : Int) (x : FileID) (rev : List FileID) :
    (sink after x rev).filter (fun r => decide (r.modTime = t)) =
      (x :: rev).filter (fun r => decide (r.modTime = t)) := by
  induction rev with
  | nil => simp [sink]
  | cons y rev ih =>
    simp only [sink]
    split
    · rename_i hlt
      have hlt' : y.modTime < x.modTime := by simpa [after] using hlt
      rw [List.filter_cons, ih]
      by_cases hx : x.modTime = t
      · have hy : y.modTime ≠ t := by omega
        simp [List.filter_cons, hx, hy]
      · simp [List.filter_cons, hx]
    · rfl

theorem insertionSortRev_filter (t : Int) (l rev : List FileID) :
    (insertionSortRev after rev l).filter (fun r => decide (r.modTime = t)) =
      (l.filter (fun r => decide (r.modTime = t))).reverse ++
        rev.filter (fun r => decide (r.modTime = t)) := by
  induction l generalizing rev with
  | nil => simp [insertionSortRev]
  | cons x rest ih =>
    simp only [insertionSortRev]
    rw [ih, sink_filter]
    by_cases hx : x.modTime = t <;> simp [List.filter_cons, hx]

/-- The sort is stable: the records of one modification time keep their order. -/
theorem sortedBucket_filter (t : Int) (files : List FileID) :
    (sortedBucket files).filter (fun r => decide (r.modTime = t)) =
      files.filter (fun r => decide (r.modTime = t)) := by
  unfold sortedBucket sortSliceStable
  rw [List.filter_reverse, insertionSortRev_filter]
  simp

theorem sortedBucket_perm (files : List FileID) : (sortedBucket files).Perm files :=
  sortSliceStable_perm after files

theorem sortedBucket_length (files : List FileID) : (sortedBucket files).length = files.length :=
  sortSliceStable_length after files

/-- Two lists that are both newest first and hold, for every modification time, the same
records of that time in the same order, are equal. -/
theorem descending_filter_unique (l₁ l₂ : List FileID)
    (h₁ : l₁.Pairwise (fun a b => b.modTime ≤ a.modTime))
    (h₂ : l₂.Pairwise (fun a b => b.modTime ≤ a.modTime))
    (hf : ∀ t : Int, l₁.filter (fun r => decide (r.modTime = t)) =
      l₂.filter (fun r => decide (r.modTime = t))) : l₁ = l₂ := by
  induction l₁ generalizing l₂ with
  | nil =>
    cases l₂ with
    | nil => rfl
    | cons b t₂ =>
      have := hf b.modTime
      simp [List.filter_cons] at this
  | cons a t₁ ih =>
    cases l₂ with
    | nil =>
      have := hf a.modTime
      simp [List.filter_cons] at this
    | cons b t₂ =>
      rw [List.pairwise_cons] at h₁ h₂
      have ha : a ∈ b :: t₂ := by
        have h := hf a.modTime
        have : a ∈ (a :: t₁).filter (fun r => decide (r.modTime = a.modTime)) := by
          simp [List.filter_cons]
        rw [h] at this
        exact (List.mem_filter.1 this).1
      have hb : b ∈ a :: t₁ := by
        have h := hf b.modTime
        have : b ∈ (b :: t₂).filter (fun r => decide (r.modTime = b.modTime)) := by
          simp [List.filter_cons]
        rw [← h] at this
        exact (List.mem_filter.1 this).1
      have hab : a.modTime ≤ b.modTime := by
        rcases List.mem_cons.1 ha with h | h
        · rw [h]
        · exact h₂.1 a h
      have hba : b.modTime ≤ a.modTime := by
        rcases List.mem_cons.1 hb with h | h
        · rw [h]
        · exact h₁.1 b h
      have hmt : a.modTime = b.modTime := le_antisymm hab hba
      have hhead := hf a.modTime
      simp only [List.filter_cons, hmt, decide_True, if_true] at hhead
      injection hhead with hab' htail
      subst hab'
      congr 1
      apply ih t₂ h₁.2 h₂.2
      intro t
      by_cases ht : a.modTime = t
      · subst ht
        exact htail
      · have := hf t
        simpa [List.filter_cons, ht] using this

/-- The result of a stable sort is fixed by the comparator: a list that is newest first
and keeps, for every modification time, the records of that time in their order in
`files`, is the sorted bucket. -/
theorem stable_sort_unique (files out : List FileID)
    (hsorted : out.Pairwise (fun a b => b.modTime ≤ a.modTime))
    (hstable : ∀ t : Int, out.filter (fun r => decide (r.modTime = t)) =
      files.filter (fun r => decide (r.modTime = t))) : out = sortedBucket files := by
  apply descending_filter_unique out (sortedBucket files) hsorted (sortedBucket_descending files)
  intro t
  rw [hstable, sortedBucket_filter]

/-! ## Lemmas on the map and the aggregator -/

theorem mapGet_mapSet_same (m : DupIndex) (k : String) (v : List FileID) :
    mapGet (mapSet m k v) k = v := by
  induction m with
  | nil => simp [mapSet, mapGet]
  | cons e rest ih =>
    obtain ⟨k', v'⟩ := e
    by_cases h : k' = k
    · simp [mapSet, mapGet, h]
    · simp [mapSet, mapGet, h, ih]

theorem mapGet_mapSet_other (m : DupIndex) (k k' : String) (v : List FileID) (h : k ≠ k') :
    mapGet (mapSet m k v) k' = mapGet m k' := by
  induction m with
  | nil => simp [mapSet, mapGet, h]
  | cons e rest ih =>
    obtain ⟨k₀, v₀⟩ := e
    by_cases h₀ : k₀ = k
    · subst h₀
      simp [mapSet, mapGet, h]
    · by_cases h₁ : k₀ = k'
      · subst h₁
        simp [mapSet, mapGet, h₀]
      · simp [mapSet, mapGet, h₀, h₁, ih]

theorem mapKeys_mapSet_mem (m : DupIndex) (k k' : String) (v : List FileID) :
    k' ∈ mapKeys (mapSet m k v) ↔ k' = k ∨ k' ∈ mapKeys m := by
  induction m with
  | nil => simp [mapSet, mapKeys]
  | cons e rest ih =>
    obtain ⟨k₀, v₀⟩ := e
    by_cases h₀ : k₀ = k
    · subst h₀
      simp [mapSet, mapKeys]
    · have ih' : k' ∈ List.map Prod.fst (mapSet rest k v) ↔ k' = k ∨ k' ∈ List.map Prod.fst rest := ih
      simp only [mapSet, mapKeys, h₀, if_false, List.map_cons, List.mem_cons, ih']
      tauto

theorem mapKeys_mapSet_nodup (m : DupIndex) (k : String) (v : List FileID)
    (h : (mapKeys m).Nodup) : (mapKeys (mapSet m k v)).Nodup := by
  induction m with
  | nil => simp [mapSet, mapKeys]
  | cons e rest ih =>
    obtain ⟨k₀, v₀⟩ := e
    have h' : k₀ ∉ mapKeys rest ∧ (mapKeys rest).Nodup := by
      simpa [mapKeys] using h
    by_cases h₀ : k₀ = k
    · subst h₀
      simpa [mapSet, mapKeys] using h
    · have hmem : k₀ ∉ mapKeys (mapSet rest k v) := by
        rw [mapKeys_mapSet_mem]
        intro hc
        rcases hc with hc | hc
        · exact h₀ hc
        · exact h'.1 hc
      have hnd := ih h'.2
      simp only [mapSet, h₀, if_false, mapKeys, List.map_cons, List.nodup_cons]
      exact ⟨hmem, hnd⟩

/-- With distinct keys, the slice stored in an entry is what the map read of its key returns. -/
theorem mapGet_of_mem (m : DupIndex) (h : (mapKeys m).Nodup) (e : String × List FileID)
    (he : e ∈ m) : mapGet m e.1 = e.2 := by
  induction m with
  | nil => cases he
  | cons e₀ rest ih =>
    obtain ⟨k₀, v₀⟩ := e₀
    have h' : k₀ ∉ mapKeys rest ∧ (mapKeys rest).Nodup := by
      simpa [mapKeys] using h
    rcases List.mem_cons.1 he with rfl | he'
    · simp [mapGet]
    · have hne : k₀ ≠ e.1 := by
        intro hc
        apply h'.1
        rw [hc]
        exact List.mem_map_of_mem Prod.fst he'
      simp [mapGet, hne, ih h'.2 he']

/-- A key absent from the map reads as the nil slice. -/
theorem mapGet_of_not_mem (m : DupIndex) (k : String) (h : k ∉ mapKeys m) : mapGet m k = [] := by
  induction m with
  | nil => rfl
  | cons e₀ rest ih =>
    obtain ⟨k₀, v₀⟩ := e₀
    have h' : ¬ k = k₀ ∧ k ∉ mapKeys rest := by
      simpa [mapKeys] using h
    have hne : k₀ ≠ k := fun hc => h'.1 hc.symm
    simp [mapGet, hne, ih h'.2]

theorem totalRecords_mapSet (m : DupIndex) (k : String) (v : List FileID) :
    totalRecords (mapSet m k v) + (mapGet m k).length = totalRecords m + v.length := by
  induction m with
  | nil => simp [mapSet, mapGet, totalRecords]
  | cons e rest ih =>
    obtain ⟨k₀, v₀⟩ := e
    by_cases h₀ : k₀ = k
    · simp [mapSet, mapGet, totalRecords, h₀]
      omega
    · have ih' : (List.map (fun e => e.2.length) (mapSet rest k v)).sum + (mapGet rest k).length
          = (List.map (fun e => e.2.length) rest).sum + v.length := ih
      simp only [mapSet, mapGet, totalRecords, h₀, if_false, List.map_cons, List.sum_cons]
      omega

theorem compareFuc_get (m : DupIndex) (ch : List FileID) (k : String) :
    mapGet (compareFuc m ch) k = mapGet m k ++ ch.filter (fun r => decide (r.md5 = k)) := by
  induction ch generalizing m with
  | nil => simp [compareFuc]
  | cons f rest ih =>
    have step : compareFuc m (f :: rest) = compareFuc (compareStep m f) rest := rfl
    rw [step, ih]
    by_cases h : f.md5 = k
    · subst h
      simp [compareStep, mapGet_mapSet_same, List.filter_cons]
    · simp [compareStep, mapGet_mapSet_other _ _ _ _ h, List.filter_cons, h]

theorem compareFuc_keys_nodup (m : DupIndex) (ch : List FileID) (h : (mapKeys m).Nodup) :
    (mapKeys (compareFuc m ch)).Nodup := by
  induction ch generalizing m with
  | nil => simpa [compareFuc] using h
  | cons f rest ih =>
    have step : compareFuc m (f :: rest) = compareFuc (compareStep m f) rest := rfl
    rw [step]
    exact ih _ (mapKeys_mapSet_nodup m _ _ h)

theorem compareFuc_keys_mem (m : DupIndex) (ch : List FileID) (k : String) :
    k ∈ mapKeys (compareFuc m ch) ↔ k ∈ mapKeys m ∨ ∃ r ∈ ch, r.md5 = k := by
  induction ch generalizing m with
  | nil => simp [compareFuc]
  | cons f rest ih =>
    have step : compareFuc m (f :: rest) = compareFuc (compareStep m f) rest := rfl
    rw [step, ih, compareStep, mapKeys_mapSet_mem]
    constructor
    · rintro ((h | h) | ⟨r, hr, h⟩)
      · exact Or.inr ⟨f, List.mem_cons_self _ _, h.symm⟩
      · exact Or.inl h
      · exact Or.inr ⟨r, List.mem_cons_of_mem _ hr, h⟩
    · rintro (h | ⟨r, hr, h⟩)
      · exact Or.inl (Or.inr h)
      · rcases List.mem_cons.1 hr with rfl | hr'
        · exact Or.inl (Or.inl h.symm)
        · exact Or.inr ⟨r, hr', h⟩

theorem compareFuc_total (m : DupIndex) (ch : List FileID) :
    totalRecords (compareFuc m ch) = totalRecords m + ch.length := by
  induction ch generalizing m with
  | nil => simp [compareFuc]
  | cons f rest ih =>
    have step : compareFuc m (f :: rest) = compareFuc (compareStep m f) rest := rfl
    rw [step, ih, compareStep]
    have := totalRecords_mapSet m f.md5 (mapGet m f.md5 ++ [f])
    rw [List.length_append, List.length_singleton] at this
    rw [List.length_cons]
    omega

/-! ## Lemmas on candidates and survivor -/

/-- A non-empty bucket, once sorted, is its candidates followed by its survivor. -/
theorem candidates_append_survivor (files : List FileID) (h : files ≠ []) :
    ∃ s, survivor files = some s ∧ candidates files ++ [s] = sortedBucket files := by
  have hne : sortedBucket files ≠ [] := by
    intro hc
    have := sortedBucket_length files
    rw [hc] at this
    exact h (List.length_eq_zero.1 this.symm)
  refine ⟨(sortedBucket files).getLast hne, ?_, ?_⟩
  · exact List.getLast?_eq_getLast _ hne
  · unfold candidates
    rw [← List.dropLast_eq_take]
    exact List.dropLast_append_getLast hne

theorem candidates_length (files : List FileID) :
    (candidates files).length = files.length - 1 := by
  unfold candidates
  rw [List.length_take, sortedBucket_length]
  omega

theorem candidates_subset (files : List FileID) (r : FileID) (h : r ∈ candidates files) :
    r ∈ files :=
  (sortedBucket_perm files).mem_iff.1 (List.mem_of_mem_take h)

/-- The survivor is not newer than any record of the bucket. -/
theorem survivor_oldest (files : List FileID) (s : FileID)
    (hc : candidates files ++ [s] = sortedBucket files) :
    ∀ r ∈ files, s.modTime ≤ r.modTime := by
  intro r hr
  have hr' : r ∈ candidates files ++ [s] := by
    rw [hc]
    exact (sortedBucket_perm files).mem_iff.2 hr
  have hd := sortedBucket_descending files
  rw [← hc, List.pairwise_append] at hd
  rcases List.mem_append.1 hr' with h | h
  · exact hd.2.2 r h s (List.mem_singleton_self s)
  · rw [List.mem_singleton.1 h]

/-- A record strictly older than every other record of its bucket is the survivor and
not a candidate. -/
theorem survivor_of_strictly_oldest (files : List FileID) (r : FileID) (hr : r ∈ files)
    (hold : ∀ x ∈ files.erase r, r.modTime < x.modTime) :
    survivor files = some r ∧ r ∉ candidates files := by
  have hne : files ≠ [] := List.ne_nil_of_mem hr
  obtain ⟨s, hs, hc⟩ := candidates_append_survivor files hne
  have hmin := survivor_oldest files s hc
  have hperm : (candidates files ++ [s]).Perm files := by
    rw [hc]
    exact sortedBucket_perm files
  have hnot : r ∉ candidates files := by
    intro hmem
    have h1 : ((candidates files ++ [s]).erase r).Perm (files.erase r) := hperm.erase r
    rw [List.erase_append_left _ hmem] at h1
    have hs' : s ∈ files.erase r := h1.mem_iff.1 (List.mem_append_right _ (List.mem_singleton_self s))
    have := hold s hs'
    have := hmin r hr
    omega
  have hrs : r = s := by
    have : r ∈ candidates files ++ [s] := hperm.mem_iff.2 hr
    rcases List.mem_append.1 this with h | h
    · exact absurd h hnot
    · exact List.mem_singleton.1 h
  exact ⟨by rw [hs, hrs], hnot⟩

theorem resolveBucket_singleton (dryRun : Bool) (w : World) (k : String) (files : List FileID)
    (h : files.length = 1) : resolveBucket dryRun w (k, files) = w := by
  simp [resolveBucket, h]

/-- The outer loop body, for every bucket, is the inner loop body run over the candidates. -/
theorem resolveBucket_eq (dryRun : Bool) (w : World) (k : String) (files : List FileID) :
    resolveBucket dryRun w (k, files) =
      (candidates files).foldl (removeStep dryRun k files.length) w := by
  unfold resolveBucket
  by_cases h : files.length = 1
  · have hc : candidates files = [] := by
      apply List.length_eq_zero.1
      rw [candidates_length, h]
    simp [h, hc]
  · simp [h, sortedBucket_length]

/-! ## Lemmas on the digest worker -/

theorem digestStep_out (md5hex : List Nat → String) (verbose : Bool) (disk : Disk)
    (w : Worker) (f : FileID) :
    (digestStep md5hex verbose disk w f).out = w.out ++ (forwarded md5hex disk f).toList := by
  unfold digestStep forwarded
  cases hopen : osOpen disk f.path with
  | none => cases verbose <;> simp
  | some d =>
    by_cases hr : d.readErr = true
    · cases verbose <;> simp [hr]
    · by_cases hsz : (d.content.length : Int) = f.size
      · cases verbose <;> simp [hr, hsz]
      · cases verbose <;> simp [hr, hsz]

theorem digestFunc_out (md5hex : List Nat → String) (verbose : Bool) (disk : Disk)
    (w : Worker) (ch : List FileID) :
    (digestFunc md5hex verbose disk w ch).out = w.out ++ ch.filterMap (forwarded md5hex disk) := by
  induction ch generalizing w with
  | nil => simp [digestFunc]
  | cons f rest ih =>
    have step : digestFunc md5hex verbose disk w (f :: rest) =
        digestFunc md5hex verbose disk (digestStep md5hex verbose disk w f) rest := rfl
    rw [step, ih, digestStep_out]
    cases hf : forwarded md5hex disk f <;> simp [List.filterMap_cons, hf]

/-! ## Lemmas on the resolution loop -/

theorem removeStep_removeCalls (dryRun : Bool) (k : String) (n : Nat) (w : World) (f : FileID) :
    (removeStep dryRun k n w f).removeCalls =
      w.removeCalls ++ (if dryRun then [] else [f.path]) := by
  unfold removeStep
  cases dryRun
  · rcases h : osRemove w.disk f.path with ⟨d, b⟩
    cases b <;> simp
  · simp

theorem removeStep_dry_disk (k : String) (n : Nat) (w : World) (f : FileID) :
    (removeStep true k n w f).disk = w.disk := by
  simp [removeStep]

theorem foldl_removeStep_removeCalls (dryRun : Bool) (k : String) (n : Nat) (l : List FileID)
    (w : World) :
    (l.foldl (removeStep dryRun k n) w).removeCalls =
      w.removeCalls ++ (if dryRun then [] else l.map (fun f => f.path)) := by
  induction l generalizing w with
  | nil => cases dryRun <;> simp
  | cons f rest ih =>
    rw [List.foldl_cons, ih, removeStep_removeCalls]
    cases dryRun <;> simp

theorem foldl_removeStep_dry_disk (k : String) (n : Nat) (l : List FileID) (w : World) :
    (l.foldl (removeStep true k n) w).disk = w.disk := by
  induction l generalizing w with
  | nil => rfl
  | cons f rest ih => rw [List.foldl_cons, ih, removeStep_dry_disk]

theorem resolutionPass_removeCalls (dryRun : Bool) (dupFiles : DupIndex) (w : World) :
    (resolutionPass dryRun dupFiles w).removeCalls =
      w.removeCalls ++ (if dryRun then [] else (allCandidates dupFiles).map (fun f => f.path)) := by
  induction dupFiles generalizing w with
  | nil => cases dryRun <;> simp [resolutionPass, allCandidates]
  | cons e rest ih =>
    obtain ⟨k, files⟩ := e
    have step : resolutionPass dryRun ((k, files) :: rest) w =
        resolutionPass dryRun rest (resolveBucket dryRun w (k, files)) := rfl
    rw [step, ih, resolveBucket_eq, foldl_removeStep_removeCalls]
    cases dryRun <;> simp [allCandidates]

theorem resolutionPass_dry_disk (dupFiles : DupIndex) (w : World) :
    (resolutionPass true dupFiles w).disk = w.disk := by
  induction dupFiles generalizing w with
  | nil => rfl
  | cons e rest ih =>
    obtain ⟨k, files⟩ := e
    have step : resolutionPass true ((k, files) :: rest) w =
        resolutionPass true rest (resolveBucket true w (k, files)) := rfl
    rw [step, ih, resolveBucket_eq, foldl_removeStep_dry_disk]

/-- The walk callback returns nil whenever it returns. -/
theorem walkFn_ret (workerCount : Int) (it : WalkItem) (s : List FileID) (e : Option String)
    (h : walkFn workerCount it = Callback.ret s e) : e = none := by
  unfold walkFn at h
  split at h
  · cases h
  · split at h
    · split at h
      · cases h
      · injection h with h₁ h₂
        exact h₂.symm
    · injection h with h₁ h₂
      exact h₂.symm

/-- The call of `filepath.Walk` in `main` never returns an error. -/
theorem filepathWalk_no_error (workerCount : Int) (walk : List WalkItem) (acc sent : List FileID)
    (e : Option String)
    (h : filepathWalk (walkFn workerCount) walk acc = WalkResult.returned sent e) : e = none := by
  induction walk generalizing acc with
  | nil =>
    simp only [filepathWalk] at h
    injection h with h₁ h₂
    exact h₂.symm
  | cons it rest ih =>
    simp only [filepathWalk] at h
    cases hfn : walkFn workerCount it with
    | panic => rw [hfn] at h; cases h
    | blocked => rw [hfn] at h; cases h
    | ret s e' =>
      have he' := walkFn_ret workerCount it s e' hfn
      subst he'
      rw [hfn] at h
      exact ih _ h

/-- The early return of lines 111 to 114 is never taken. -/
theorem mainRun_never_walkError (md5hex : List Nat → String) (sched : Sched)
    (dryRun verbose : Bool) (workerCount : Int) (walk : List WalkItem) (disk : Disk)
    (err : String) :
    mainRun md5hex sched dryRun verbose workerCount walk disk ≠ Outcome.walkError err := by
  unfold mainRun
  cases hw : filepathWalk (walkFn workerCount) walk [] with
  | panicked => simp
  | blocked => simp
  | returned sent e =>
    have := filepathWalk_no_error workerCount walk [] sent e hw
    subst this
    simp

/-- What a completed run leaves, in terms of what the walk sent. -/
theorem mainRun_completed (md5hex : List Nat → String) (sched : Sched)
    (dryRun verbose : Bool) (workerCount : Int) (walk : List WalkItem) (disk : Disk)
    (dupFiles : DupIndex) (w : World)
    (h : mainRun md5hex sched dryRun verbose workerCount walk disk = Outcome.completed dupFiles w) :
    ∃ sent, filepathWalk (walkFn workerCount) walk [] = WalkResult.returned sent none ∧
      dupFiles = compareFuc [] (sched.arrival (digestFunc md5hex verbose disk Worker.start sent).out) ∧
      w = resolutionPass dryRun (sched.range dupFiles)
        { disk := disk, removeCalls := [],
          log := (if dryRun then [LogLine.dryRunMode] else []) ++
            (digestFunc md5hex verbose disk Worker.start sent).log ++
            (if verbose then [LogLine.digestDone] else []) ++
            (if verbose then [LogLine.compareDone] else []) } := by
  unfold mainRun at h
  cases hw : filepathWalk (walkFn workerCount) walk [] with
  | panicked => rw [hw] at h; cases h
  | blocked => rw [hw] at h; cases h
  | returned sent e =>
    have := filepathWalk_no_error workerCount walk [] sent e hw
    subst this
    rw [hw] at h
    simp only at h
    injection h with h₁ h₂
    subst h₁
    exact ⟨sent, rfl, rfl, h₂.symm⟩

/-- A run whose walk returns completes. -/
theorem mainRun_of_walk (md5hex : List Nat → String) (sched : Sched)
    (dryRun verbose : Bool) (workerCount : Int) (walk : List WalkItem) (disk : Disk)
    (sent : List FileID)
    (h : filepathWalk (walkFn workerCount) walk [] = WalkResult.returned sent none) :
    ∃ dupFiles w,
      mainRun md5hex sched dryRun verbose workerCount walk disk = Outcome.completed dupFiles w := by
  unfold mainRun
  rw [h]
  exact ⟨_, _, rfl⟩

theorem forwarded_some (md5hex : List Nat → String) (disk : Disk) (f r : FileID) :
    forwarded md5hex disk f = some r ↔
      ∃ d, osOpen disk f.path = some d ∧ d.readErr = false ∧
        r = { f with md5 := md5hex d.content } := by
  unfold forwarded
  cases hopen : osOpen disk f.path with
  | none => simp
  | some d =>
    by_cases hr : d.readErr = true
    · simp [hr]
    · have hr' : d.readErr = false := by simpa using hr
      simp only [hr', Bool.false_eq_true, if_false, Option.some.injEq]
      constructor
      · intro h
        exact ⟨d, rfl, hr', h.symm⟩
      · rintro ⟨d', hd', _, h⟩
        rw [← hd'] at h
        exact h.symm

/-- Every record in a bucket was sent by a digest worker: its file opened and was read to
the end, and its `md5` field is the digest of the bytes read. -/
theorem bucket_forwarded (md5hex : List Nat → String) (verbose : Bool) (disk : Disk)
    (sent arrival : List FileID)
    (h : arrival.Perm (digestFunc md5hex verbose disk Worker.start sent).out)
    (k : String) (r : FileID) (hr : r ∈ mapGet (compareFuc [] arrival) k) :
    ∃ f ∈ sent, ∃ d, osOpen disk f.path = some d ∧ d.readErr = false ∧
      r = { f with md5 := md5hex d.content } := by
  rw [compareFuc_get] at hr
  have hr₁ : r ∈ arrival := by
    rcases List.mem_append.1 hr with h₀ | h₀
    · simp [mapGet] at h₀
    · exact (List.mem_filter.1 h₀).1
  have hr₂ : r ∈ sent.filterMap (forwarded md5hex disk) := by
    have := h.mem_iff.1 hr₁
    rw [digestFunc_out] at this
    simpa [Worker.start] using this
  obtain ⟨f, hf, hfr⟩ := List.mem_filterMap.1 hr₂
  exact ⟨f, hf, (forwarded_some md5hex disk f r).1 hfr⟩

/-- Every entry of the map built from the empty map holds the received records of its key,
and at least one. -/
theorem compareFuc_entry (ch : List FileID) (e : String × List FileID)
    (he : e ∈ compareFuc [] ch) :
    e.2 = mapGet (compareFuc [] ch) e.1 ∧
      e.2 = ch.filter (fun r => decide (r.md5 = e.1)) ∧ e.2 ≠ [] := by
  have hnd : (mapKeys (compareFuc [] ch)).Nodup :=
    compareFuc_keys_nodup [] ch (by simp [mapKeys])
  have h₁ : e.2 = mapGet (compareFuc [] ch) e.1 := (mapGet_of_mem _ hnd e he).symm
  have h₂ : e.2 = ch.filter (fun r => decide (r.md5 = e.1)) := by
    rw [h₁, compareFuc_get]
    simp [mapGet]
  refine ⟨h₁, h₂, ?_⟩
  have hk : e.1 ∈ mapKeys (compareFuc [] ch) := List.mem_map_of_mem Prod.fst he
  rw [compareFuc_keys_mem] at hk
  rcases hk with hk | ⟨r, hr, hrk⟩
  · simp [mapKeys] at hk
  · rw [h₂]
    intro hc
    have : r ∈ ch.filter (fun r => decide (r.md5 = e.1)) := by
      rw [List.mem_filter]
      exact ⟨hr, by simpa using hrk⟩
    rw [hc] at this
    cases this

/-! ## Lemmas on a run over a disk without failures -/

theorem find?_path_of_nodup (disk : Disk) (h : (disk.map (fun d => d.path)).Nodup)
    (d : DiskFile) (hd : d ∈ disk) : disk.find? (fun e => e.path = d.path) = some d := by
  induction disk with
  | nil => cases hd
  | cons e rest ih =>
    have h' : e.path ∉ rest.map (fun d => d.path) ∧ (rest.map (fun d => d.path)).Nodup := by
      simpa using h
    rcases List.mem_cons.1 hd with rfl | hd'
    · simp [List.find?_cons]
    · have hne : e.path ≠ d.path := by
        intro hc
        apply h'.1
        rw [hc]
        exact List.mem_map_of_mem (fun d => d.path) hd'
      simp [List.find?_cons, hne, ih h'.2 hd']

theorem forwarded_good (md5hex : List Nat → String) (disk : Disk)
    (h : (disk.map (fun d => d.path)).Nodup) (d : DiskFile) (hd : d ∈ disk)
    (ho : d.openErr = false) (hr : d.readErr = false) :
    forwarded md5hex disk (walkRecord d) = some (digested md5hex d) := by
  have hfind := find?_path_of_nodup disk h d hd
  simp [forwarded, osOpen, walkRecord, digested, hfind, ho, hr]

theorem filterMap_forwarded_good (md5hex : List Nat → String) (disk : Disk)
    (h : (disk.map (fun d => d.path)).Nodup) (l : List DiskFile)
    (hl : ∀ d ∈ l, d ∈ disk ∧ d.openErr = false ∧ d.readErr = false) :
    (l.map walkRecord).filterMap (forwarded md5hex disk) = l.map (digested md5hex) := by
  induction l with
  | nil => rfl
  | cons d rest ih =>
    have hd := hl d (List.mem_cons_self _ _)
    have hrest : ∀ d ∈ rest, d ∈ disk ∧ d.openErr = false ∧ d.readErr = false :=
      fun x hx => hl x (List.mem_cons_of_mem _ hx)
    rw [List.map_cons, List.filterMap_cons, forwarded_good md5hex disk h d hd.1 hd.2.1 hd.2.2]
    simp [ih hrest]

theorem digestFunc_good (md5hex : List Nat → String) (verbose : Bool) (disk : Disk)
    (h : (disk.map (fun d => d.path)).Nodup)
    (hok : ∀ d ∈ disk, d.openErr = false ∧ d.readErr = false ∧ d.removeErr = false) :
    (digestFunc md5hex verbose disk Worker.start (disk.map walkRecord)).out =
      disk.map (digested md5hex) := by
  rw [digestFunc_out, filterMap_forwarded_good md5hex disk h disk]
  · simp [Worker.start]
  · intro d hd
    exact ⟨hd, (hok d hd).1, (hok d hd).2.1⟩

theorem filepathWalk_files (n : Int) (hn : 0 < n) (disk : Disk) (acc : List FileID) :
    filepathWalk (walkFn n) (disk.map walkItem) acc =
      WalkResult.returned (acc ++ disk.map walkRecord) none := by
  induction disk generalizing acc with
  | nil => simp [filepathWalk]
  | cons d rest ih =>
    have hn' : ¬ n ≤ 0 := not_le.2 hn
    simp [filepathWalk, walkFn, walkItem, hn', ih, walkRecord]

theorem walkOf_returned (n : Int) (root : String) (disk : Disk) (h : 0 < n ∨ disk = []) :
    filepathWalk (walkFn n) (walkOf root disk) [] =
      WalkResult.returned (disk.map walkRecord) none := by
  rcases h with hn | hd
  · have := filepathWalk_files n hn disk []
    simpa [walkOf, filepathWalk, walkFn] using this
  · subst hd
    simp [walkOf, filepathWalk, walkFn]

theorem walkOf_blocked (n : Int) (root : String) (disk : Disk) (hn : n ≤ 0) (hd : disk ≠ []) :
    filepathWalk (walkFn n) (walkOf root disk) [] = WalkResult.blocked := by
  cases disk with
  | nil => exact absurd rfl hd
  | cons d rest => simp [walkOf, filepathWalk, walkFn, walkItem, hn]

/-- What the walk over a disk sent, when it returns. -/
theorem walkOf_sent (n : Int) (root : String) (disk : Disk) (sent : List FileID)
    (h : filepathWalk (walkFn n) (walkOf root disk) [] = WalkResult.returned sent none) :
    sent = disk.map walkRecord := by
  by_cases hc : 0 < n ∨ disk = []
  · rw [walkOf_returned n root disk hc] at h
    injection h with h₁ h₂
    exact h₁.symm
  · have hn : n ≤ 0 := by
      by_contra hcon
      exact hc (Or.inl (not_le.1 hcon))
    have hd : disk ≠ [] := fun hcon => hc (Or.inr hcon)
    rw [walkOf_blocked n root disk hn hd] at h
    cases h

theorem osRemove_disk (disk : Disk) (p : String) (h : ∀ d ∈ disk, d.removeErr = false) :
    (osRemove disk p).1 = disk.filter (fun e => decide (e.path ≠ p)) := by
  unfold osRemove
  cases hfind : disk.find? (fun d => d.path = p) with
  | none =>
    have hall : ∀ x ∈ disk, ¬ x.path = p := by
      simpa using (List.find?_eq_none.1 hfind)
    simp only
    symm
    rw [List.filter_eq_self]
    intro x hx
    simpa using hall x hx
  | some d =>
    have hd : d ∈ disk := List.mem_of_find?_eq_some hfind
    simp [h d hd]

theorem removeStep_apply_disk (k : String) (n : Nat) (w : World) (f : FileID)
    (h : ∀ d ∈ w.disk, d.removeErr = false) :
    (removeStep false k n w f).disk = w.disk.filter (fun e => decide (e.path ≠ f.path)) := by
  rw [← osRemove_disk w.disk f.path h]
  unfold removeStep
  rcases hrem : osRemove w.disk f.path with ⟨d, b⟩
  cases b <;> simp

theorem foldl_removeStep_apply_disk (k : String) (n : Nat) (l : List FileID) (w : World)
    (h : ∀ d ∈ w.disk, d.removeErr = false) :
    (l.foldl (removeStep false k n) w).disk =
      w.disk.filter (fun e => decide (e.path ∉ l.map (fun f => f.path))) := by
  induction l generalizing w with
  | nil => simp
  | cons f rest ih =>
    have hstep := removeStep_apply_disk k n w f h
    have h' : ∀ d ∈ (removeStep false k n w f).disk, d.removeErr = false := by
      intro d hd
      rw [hstep] at hd
      exact h d (List.mem_filter.1 hd).1
    rw [List.foldl_cons, ih _ h', hstep, List.filter_filter]
    apply List.filter_congr
    intro x _
    by_cases h₁ : x.path = f.path <;>
      by_cases h₂ : x.path ∈ List.map (fun f => f.path) rest <;> simp [h₁, h₂]

theorem resolutionPass_apply_disk (dupFiles : DupIndex) (w : World)
    (h : ∀ d ∈ w.disk, d.removeErr = false) :
    (resolutionPass false dupFiles w).disk =
      w.disk.filter (fun e => decide (e.path ∉ (allCandidates dupFiles).map (fun f => f.path))) := by
  induction dupFiles generalizing w with
  | nil => simp [resolutionPass, allCandidates]
  | cons e rest ih =>
    obtain ⟨k, files⟩ := e
    have step : resolutionPass false ((k, files) :: rest) w =
        resolutionPass false rest (resolveBucket false w (k, files)) := rfl
    have hb : (resolveBucket false w (k, files)).disk =
        w.disk.filter (fun e => decide (e.path ∉ (candidates files).map (fun f => f.path))) := by
      rw [resolveBucket_eq]
      exact foldl_removeStep_apply_disk k files.length (candidates files) w h
    have h' : ∀ d ∈ (resolveBucket false w (k, files)).disk, d.removeErr = false := by
      intro d hd
      rw [hb] at hd
      exact h d (List.mem_filter.1 hd).1
    rw [step, ih _ h', hb, List.filter_filter]
    apply List.filter_congr
    intro x _
    by_cases h₁ : x.path ∈ List.map (fun f => f.path) (candidates files) <;>
      by_cases h₂ : x.path ∈ List.map (fun f => f.path) (allCandidates rest) <;>
      simp [allCandidates, List.flatMap_cons, h₁, h₂]

theorem resolutionPass_all_single (dryRun : Bool) (dupFiles : DupIndex) (w : World)
    (h : ∀ e ∈ dupFiles, e.2.length = 1) : resolutionPass dryRun dupFiles w = w := by
  induction dupFiles generalizing w with
  | nil => rfl
  | cons e rest ih =>
    have step : resolutionPass dryRun (e :: rest) w =
        resolutionPass dryRun rest (resolveBucket dryRun w e) := rfl
    have he : resolveBucket dryRun w e = w := by
      simp [resolveBucket, h e (List.mem_cons_self _ _)]
    rw [step, he]
    exact ih w (fun x hx => h x (List.mem_cons_of_mem _ hx))

theorem digestStep_log_eq (md5hex : List Nat → String) (verbose : Bool) (disk : Disk)
    (w : Worker) (f : FileID) :
    ∃ extra : List LogLine, (digestStep md5hex verbose disk w f).log = w.log ++ extra ∧
      ∀ line ∈ extra, line.isDelete = false := by
  cases hopen : osOpen disk f.path with
  | none =>
    refine ⟨(if verbose then [LogLine.md5sum f.path] else []) ++ [LogLine.openError f.path], ?_, ?_⟩
    · cases verbose <;> simp [digestStep, hopen]
    · cases verbose <;> simp [LogLine.isDelete]
  | some d =>
    by_cases hr : d.readErr = true
    · refine ⟨(if verbose then [LogLine.md5sum f.path] else []) ++ [LogLine.readError f.path], ?_, ?_⟩
      · cases verbose <;> simp [digestStep, hopen, hr]
      · cases verbose <;> simp [LogLine.isDelete]
    · by_cases hsz : (d.content.length : Int) = f.size
      · refine ⟨(if verbose then [LogLine.md5sum f.path] else []), ?_, ?_⟩
        · cases verbose <;> simp [digestStep, hopen, hr, hsz]
        · cases verbose <;> simp [LogLine.isDelete]
      · refine ⟨(if verbose then [LogLine.md5sum f.path] else []) ++
          [LogLine.sizeMismatch f.path d.content.length f.size], ?_, ?_⟩
        · cases verbose <;> simp [digestStep, hopen, hr, hsz]
        · cases verbose <;> simp [LogLine.isDelete]

theorem digestStep_log (md5hex : List Nat → String) (verbose : Bool) (disk : Disk)
    (w : Worker) (f : FileID) (h : ∀ line ∈ w.log, line.isDelete = false) :
    ∀ line ∈ (digestStep md5hex verbose disk w f).log, line.isDelete = false := by
  obtain ⟨extra, heq, hex⟩ := digestStep_log_eq md5hex verbose disk w f
  rw [heq]
  intro line hl
  rcases List.mem_append.1 hl with h₁ | h₁
  · exact h line h₁
  · exact hex line h₁

theorem digestFunc_log (md5hex : List Nat → String) (verbose : Bool) (disk : Disk)
    (w : Worker) (ch : List FileID) (h : ∀ line ∈ w.log, line.isDelete = false) :
    ∀ line ∈ (digestFunc md5hex verbose disk w ch).log, line.isDelete = false := by
  induction ch generalizing w with
  | nil => exact h
  | cons f rest ih =>
    have step : digestFunc md5hex verbose disk w (f :: rest) =
        digestFunc md5hex verbose disk (digestStep md5hex verbose disk w f) rest := rfl
    rw [step]
    exact ih _ (digestStep_log md5hex verbose disk w f h)

theorem length_le_one_of_nodup_const {α : Type} (l : List α) (hnd : l.Nodup)
    (h : ∀ x ∈ l, ∀ y ∈ l, x = y) : l.length ≤ 1 := by
  cases l with
  | nil => simp
  | cons a t =>
    cases t with
    | nil => simp
    | cons b t' =>
      have hab : a = b := h a (List.mem_cons_self _ _) b (List.mem_cons_of_mem _ (List.mem_cons_self _ _))
      subst hab
      simp at hnd

theorem digested_nodup (md5hex : List Nat → String) (disk : Disk)
    (h : (disk.map (fun d => d.path)).Nodup) : (disk.map (digested md5hex)).Nodup := by
  apply List.Nodup.of_map (fun f : FileID => f.path)
  rw [List.map_map]
  exact h

/-- After the resolution loop in apply mode, the files left on a disk without failures have
pairwise distinct digests: of every digest at most one file is left. -/
theorem survivors_distinct (md5hex : List Nat → String) (disk : Disk)
    (hpaths : (disk.map (fun d => d.path)).Nodup) (arrival : List FileID)
    (harr : arrival.Perm (disk.map (digested md5hex))) (visited : DupIndex)
    (hvis : visited.Perm (compareFuc [] arrival)) (k : String) :
    (((disk.filter (fun e => decide (e.path ∉ (allCandidates visited).map (fun f => f.path)))).map
      (digested md5hex)).filter (fun r => decide (r.md5 = k))).length ≤ 1 := by
  have hone : ∀ x ∈ ((disk.filter (fun e => decide (e.path ∉ (allCandidates visited).map
      (fun f => f.path)))).map (digested md5hex)).filter (fun r => decide (r.md5 = k)),
      x ∈ mapGet (compareFuc [] arrival) k ∧ x ∉ candidates (mapGet (compareFuc [] arrival) k) := by
    intro x hx
    obtain ⟨hx₁, hx₂⟩ := List.mem_filter.1 hx
    have hk : x.md5 = k := by simpa using hx₂
    obtain ⟨d, hd, hdx⟩ := List.mem_map.1 hx₁
    obtain ⟨hd₁, hd₂⟩ := List.mem_filter.1 hd
    have hnotin : d.path ∉ (allCandidates visited).map (fun f => f.path) := by simpa using hd₂
    have hxarr : x ∈ arrival := by
      apply harr.mem_iff.2
      rw [← hdx]
      exact List.mem_map_of_mem _ hd₁
    have hxb : x ∈ mapGet (compareFuc [] arrival) k := by
      rw [compareFuc_get]
      apply List.mem_append_right
      rw [List.mem_filter]
      exact ⟨hxarr, by simpa using hk⟩
    refine ⟨hxb, ?_⟩
    intro hcand
    apply hnotin
    have hkey : k ∈ mapKeys (compareFuc [] arrival) := by
      rw [compareFuc_keys_mem]
      exact Or.inr ⟨x, hxarr, hk⟩
    obtain ⟨e, he, hek⟩ := List.mem_map.1 hkey
    have hent := (compareFuc_entry arrival e he).1
    rw [hek] at hent
    have hxc : x ∈ allCandidates visited := by
      unfold allCandidates
      apply List.mem_flatMap.2
      refine ⟨e, hvis.mem_iff.2 he, ?_⟩
      rw [hent]
      exact hcand
    rw [List.mem_map]
    refine ⟨x, hxc, ?_⟩
    rw [← hdx]
    rfl
  apply length_le_one_of_nodup_const
  · exact ((digested_nodup md5hex _
      ((hpaths.sublist ((List.filter_sublist disk).map _)))).filter _)
  · intro x hx y hy
    obtain ⟨hxb, hxc⟩ := hone x hx
    obtain ⟨hyb, hyc⟩ := hone y hy
    have hne : mapGet (compareFuc [] arrival) k ≠ [] := List.ne_nil_of_mem hxb
    obtain ⟨s, _, hs⟩ := candidates_append_survivor _ hne
    have hmem : ∀ z ∈ mapGet (compareFuc [] arrival) k,
        z ∉ candidates (mapGet (compareFuc [] arrival) k) → z = s := by
      intro z hz hzc
      have : z ∈ candidates (mapGet (compareFuc [] arrival) k) ++ [s] := by
        rw [hs]
        exact (sortedBucket_perm _).mem_iff.2 hz
      rcases List.mem_append.1 this with h₁ | h₁
      · exact absurd h₁ hzc
      · exact List.mem_singleton.1 h₁
    rw [hmem x hxb hxc, hmem y hyb hyc]

/-! ## The claims -/

/-- C9: the sort step of the resolution loop. For every bucket `files`, the bucket after
`sort.SliceStable` with the comparator `files[i].modTime.After(files[j].modTime)` is a
permutation of the arrival-order list, its modification times never increase from first to
last, and records of equal modification time keep their arrival order: for every time `t`
the records of time `t` form the same sequence before and after, so two records `a`
before `b` of equal time stay `a` before `b`. -/
theorem C9_sort_step (files : List FileID) :
    (sortedBucket files).Perm files ∧
    (sortedBucket files).Pairwise (fun a b => b.modTime ≤ a.modTime) ∧
    (∀ t : Int, (sortedBucket files).filter (fun r => decide (r.modTime = t)) =
      files.filter (fun r => decide (r.modTime = t))) ∧
    (∀ a b : FileID, a.modTime = b.modTime → List.Sublist [a, b] files →
      List.Sublist [a, b] (sortedBucket files)) := by
  refine ⟨sortedBucket_perm files, sortedBucket_descending files, fun t => sortedBucket_filter t files, ?_⟩
  intro a b hab hsub
  have h1 : List.Sublist ([a, b].filter (fun r => decide (r.modTime = a.modTime)))
      (files.filter (fun r => decide (r.modTime = a.modTime))) := hsub.filter _
  have h2 : [a, b].filter (fun r => decide (r.modTime = a.modTime)) = [a, b] := by
    simp [List.filter_cons, hab]
  rw [h2, ← sortedBucket_filter] at h1
  exact h1.trans (List.filter_sublist _)

/-- C1: the resolution loop keeps the oldest record of a bucket. A bucket of exactly one
record yields no candidate and leaves disk, remove calls and log untouched. For a bucket
`files` of `n >= 2` records there is a survivor `s` such that: the candidates followed by
`s` are a permutation of the bucket; there are exactly `n - 1` candidates; `s` is not newer
than any record of the bucket; every record that is strictly newer than some record of the
bucket is a candidate; a record strictly older than all other records of the bucket is the
survivor and not a candidate; and the loop body of `main` runs its delete step on exactly
the candidates, in order. -/
theorem C1_resolution_keeps_oldest (files : List FileID) :
    (files.length = 1 →
      candidates files = [] ∧ ∀ (dryRun : Bool) (w : World) (k : String),
        resolveBucket dryRun w (k, files) = w) ∧
    (2 ≤ files.length →
      ∃ s, survivor files = some s ∧
        (candidates files ++ [s]).Perm files ∧
        (candidates files).length = files.length - 1 ∧
        (∀ r ∈ files, s.modTime ≤ r.modTime) ∧
        (∀ r ∈ files, (∃ r' ∈ files, r'.modTime < r.modTime) → r ∈ candidates files) ∧
        (∀ r ∈ files, (∀ x ∈ files.erase r, r.modTime < x.modTime) →
          s = r ∧ r ∉ candidates files) ∧
        (∀ (dryRun : Bool) (w : World) (k : String),
          resolveBucket dryRun w (k, files) =
            (candidates files).foldl (removeStep dryRun k files.length) w)) := by
  constructor
  · intro h
    refine ⟨?_, fun dryRun w k => resolveBucket_singleton dryRun w k files h⟩
    apply List.length_eq_zero.1
    rw [candidates_length, h]
  · intro h
    have hne : files ≠ [] := by
      intro hc
      rw [hc] at h
      simp at h
    obtain ⟨s, hs, hc⟩ := candidates_append_survivor files hne
    have hperm : (candidates files ++ [s]).Perm files := by
      rw [hc]
      exact sortedBucket_perm files
    have hmin := survivor_oldest files s hc
    refine ⟨s, hs, hperm, candidates_length files, hmin, ?_, ?_, ?_⟩
    · rintro r hr ⟨r', hr', hlt⟩
      have : r ∈ candidates files ++ [s] := hperm.mem_iff.2 hr
      rcases List.mem_append.1 this with h1 | h1
      · exact h1
      · have hrs : r = s := List.mem_singleton.1 h1
        have := hmin r' hr'
        rw [hrs] at hlt
        omega
    · intro r hr hold
      obtain ⟨h1, h2⟩ := survivor_of_strictly_oldest files r hr hold
      rw [hs] at h1
      exact ⟨Option.some.inj h1, h2⟩
    · intro dryRun w k
      exact resolveBucket_eq dryRun w k files

/-- C6: the aggregator invariant. After `compareFuc` has consumed the records `ch`, starting
from the empty map: the keys of `dupFiles` are pairwise distinct; the bucket read under any
key `k` is exactly the received records whose `md5` field is `k`, unaltered and in arrival
order; every entry of the map stores that bucket, which is never empty; every received
record has an entry under its own `md5`; a record occurs in the bucket of its own `md5` as
often as it was received and in no entry under another key; and the bucket sizes add up to
the number of records received. -/
theorem C6_aggregator_invariant (ch : List FileID) :
    (mapKeys (compareFuc [] ch)).Nodup ∧
    (∀ k : String, mapGet (compareFuc [] ch) k = ch.filter (fun r => decide (r.md5 = k))) ∧
    (∀ e ∈ compareFuc [] ch, e.2 = ch.filter (fun r => decide (r.md5 = e.1)) ∧ e.2 ≠ []) ∧
    (∀ r ∈ ch, ∃ e ∈ compareFuc [] ch, e.1 = r.md5) ∧
    (∀ r : FileID, (mapGet (compareFuc [] ch) r.md5).count r = ch.count r) ∧
    (∀ (r : FileID), ∀ e ∈ compareFuc [] ch, e.1 ≠ r.md5 → e.2.count r = 0) ∧
    totalRecords (compareFuc [] ch) = ch.length := by
  have hnd : (mapKeys (compareFuc [] ch)).Nodup :=
    compareFuc_keys_nodup [] ch (by simp [mapKeys])
  have hget : ∀ k : String, mapGet (compareFuc [] ch) k = ch.filter (fun r => decide (r.md5 = k)) := by
    intro k
    rw [compareFuc_get]
    simp [mapGet]
  have hentry : ∀ e ∈ compareFuc [] ch, e.2 = ch.filter (fun r => decide (r.md5 = e.1)) := by
    intro e he
    rw [← hget, mapGet_of_mem _ hnd e he]
  refine ⟨hnd, hget, ?_, ?_, ?_, ?_, ?_⟩
  · intro e he
    refine ⟨hentry e he, ?_⟩
    have hk : e.1 ∈ mapKeys (compareFuc [] ch) := List.mem_map_of_mem Prod.fst he
    rw [compareFuc_keys_mem] at hk
    rcases hk with hk | ⟨r, hr, hrk⟩
    · simp [mapKeys] at hk
    · rw [hentry e he]
      intro hc
      have : r ∈ ch.filter (fun r => decide (r.md5 = e.1)) := by
        rw [List.mem_filter]
        exact ⟨hr, by simpa using hrk⟩
      rw [hc] at this
      cases this
  · intro r hr
    have hk : r.md5 ∈ mapKeys (compareFuc [] ch) := by
      rw [compareFuc_keys_mem]
      exact Or.inr ⟨r, hr, rfl⟩
    obtain ⟨e, he, hek⟩ := List.mem_map.1 hk
    exact ⟨e, he, hek⟩
  · intro r
    rw [hget, List.count_filter]
    simp
  · intro r e he hne
    rw [hentry e he, List.count_eq_zero]
    intro hmem
    have := (List.mem_filter.1 hmem).2
    apply hne
    have h' : r.md5 = e.1 := by simpa using this
    exact h'.symm
  · rw [compareFuc_total]
    simp [totalRecords]

/-- C4: grouping does not depend on arrival order. If `ch₂` is a permutation of `ch₁`, the
maps the aggregator builds from them have the same keys (as sets, and as lists up to
order, each key once), under every key buckets that hold the same records the same number
of times, entry for entry; and in both maps two received records of equal digest lie in
the one bucket of that digest. -/
theorem C4_grouping_order_independent (ch₁ ch₂ : List FileID) (h : ch₁.Perm ch₂) :
    (∀ k : String, k ∈ mapKeys (compareFuc [] ch₁) ↔ k ∈ mapKeys (compareFuc [] ch₂)) ∧
    (mapKeys (compareFuc [] ch₁)).Perm (mapKeys (compareFuc [] ch₂)) ∧
    (∀ k : String, (mapGet (compareFuc [] ch₁) k).Perm (mapGet (compareFuc [] ch₂) k)) ∧
    (∀ e₁ ∈ compareFuc [] ch₁, ∃ e₂ ∈ compareFuc [] ch₂, e₂.1 = e₁.1 ∧ e₁.2.Perm e₂.2) ∧
    (∀ a ∈ ch₁, ∀ b ∈ ch₁, a.md5 = b.md5 →
      a ∈ mapGet (compareFuc [] ch₁) a.md5 ∧ b ∈ mapGet (compareFuc [] ch₁) a.md5 ∧
      a ∈ mapGet (compareFuc [] ch₂) a.md5 ∧ b ∈ mapGet (compareFuc [] ch₂) a.md5) := by
  have hnd₁ : (mapKeys (compareFuc [] ch₁)).Nodup :=
    compareFuc_keys_nodup [] ch₁ (by simp [mapKeys])
  have hnd₂ : (mapKeys (compareFuc [] ch₂)).Nodup :=
    compareFuc_keys_nodup [] ch₂ (by simp [mapKeys])
  have hkeys : ∀ k : String, k ∈ mapKeys (compareFuc [] ch₁) ↔ k ∈ mapKeys (compareFuc [] ch₂) := by
    intro k
    rw [compareFuc_keys_mem, compareFuc_keys_mem]
    constructor
    · rintro (hk | ⟨r, hr, hrk⟩)
      · exact Or.inl hk
      · exact Or.inr ⟨r, h.mem_iff.1 hr, hrk⟩
    · rintro (hk | ⟨r, hr, hrk⟩)
      · exact Or.inl hk
      · exact Or.inr ⟨r, h.mem_iff.2 hr, hrk⟩
  have hget : ∀ k : String, (mapGet (compareFuc [] ch₁) k).Perm (mapGet (compareFuc [] ch₂) k) := by
    intro k
    rw [compareFuc_get, compareFuc_get]
    exact List.Perm.append_left _ (h.filter _)
  refine ⟨hkeys, (List.perm_ext_iff_of_nodup hnd₁ hnd₂).2 hkeys, hget, ?_, ?_⟩
  · intro e₁ he₁
    have hk : e₁.1 ∈ mapKeys (compareFuc [] ch₂) :=
      (hkeys e₁.1).1 (List.mem_map_of_mem Prod.fst he₁)
    obtain ⟨e₂, he₂, hek⟩ := List.mem_map.1 hk
    refine ⟨e₂, he₂, hek, ?_⟩
    have h₁ := mapGet_of_mem _ hnd₁ e₁ he₁
    have h₂ := mapGet_of_mem _ hnd₂ e₂ he₂
    rw [← h₁, ← h₂, hek]
    exact hget e₁.1
  · intro a ha b hb hab
    have hin : ∀ (ch : List FileID) (r : FileID), r ∈ ch → r.md5 = a.md5 →
        r ∈ mapGet (compareFuc [] ch) a.md5 := by
      intro ch r hr hrk
      rw [compareFuc_get]
      apply List.mem_append_right
      rw [List.mem_filter]
      exact ⟨hr, by simpa using hrk⟩
    exact ⟨hin ch₁ a ha rfl, hin ch₁ b hb hab.symm, hin ch₂ a (h.mem_iff.1 ha) rfl,
      hin ch₂ b (h.mem_iff.1 hb) hab.symm⟩

/-- Two buckets with the same records whose modification times are pairwise distinct are
sorted into the same list. -/
theorem sortedBucket_eq_of_perm (b₁ b₂ : List FileID) (h : b₁.Perm b₂)
    (hd : b₁.Pairwise (fun a b => a.modTime ≠ b.modTime)) : sortedBucket b₁ = sortedBucket b₂ := by
  have hp : (sortedBucket b₁).Perm (sortedBucket b₂) :=
    ((sortedBucket_perm b₁).trans h).trans (sortedBucket_perm b₂).symm
  have hsym : ∀ {x y : FileID}, x.modTime ≠ y.modTime → y.modTime ≠ x.modTime :=
    fun hxy => fun hc => hxy hc.symm
  have hd₁ : (sortedBucket b₁).Pairwise (fun a b => a.modTime ≠ b.modTime) :=
    ((sortedBucket_perm b₁).pairwise_iff hsym).2 hd
  have hd₂ : (sortedBucket b₂).Pairwise (fun a b => a.modTime ≠ b.modTime) :=
    (hp.pairwise_iff hsym).1 hd₁
  have hs₁ : (sortedBucket b₁).Pairwise (fun a b => b.modTime < a.modTime) :=
    ((sortedBucket_descending b₁).and hd₁).imp (fun hx => lt_of_le_of_ne hx.1 (fun hc => hx.2 hc.symm))
  have hs₂ : (sortedBucket b₂).Pairwise (fun a b => b.modTime < a.modTime) :=
    ((sortedBucket_descending b₂).and hd₂).imp (fun hx => lt_of_le_of_ne hx.1 (fun hc => hx.2 hc.symm))
  haveI : IsAntisymm FileID (fun a b => b.modTime < a.modTime) :=
    ⟨fun a b hab hba => absurd hab (not_lt.2 (le_of_lt hba))⟩
  exact List.eq_of_perm_of_sorted hp hs₁ hs₂

/-- C10: determinism of the outcome. Let `ch₂` be a permutation of the arrival order
`ch₁`. For every digest `k` whose records have pairwise distinct modification times,
aggregation followed by the resolution loop sorts the bucket of `k` into the same list
under both orders, hence visits the same candidates in the same sequence and keeps the same
survivor. And for every digest `k`, with or without ties elsewhere in its bucket, a
record strictly older than all other records of the bucket is the survivor under both
orders: the survivor can differ only when the earliest modification time is shared. -/
theorem C10_outcome_deterministic (ch₁ ch₂ : List FileID) (h : ch₁.Perm ch₂) :
    (∀ k : String,
      (mapGet (compareFuc [] ch₁) k).Pairwise (fun a b => a.modTime ≠ b.modTime) →
        sortedBucket (mapGet (compareFuc [] ch₁) k) = sortedBucket (mapGet (compareFuc [] ch₂) k) ∧
        candidates (mapGet (compareFuc [] ch₁) k) = candidates (mapGet (compareFuc [] ch₂) k) ∧
        survivor (mapGet (compareFuc [] ch₁) k) = survivor (mapGet (compareFuc [] ch₂) k)) ∧
    (∀ (k : String) (r : FileID), r ∈ mapGet (compareFuc [] ch₁) k →
      (∀ x ∈ (mapGet (compareFuc [] ch₁) k).erase r, r.modTime < x.modTime) →
        survivor (mapGet (compareFuc [] ch₁) k) = some r ∧
        survivor (mapGet (compareFuc [] ch₂) k) = some r) := by
  have hget : ∀ k : String, (mapGet (compareFuc [] ch₁) k).Perm (mapGet (compareFuc [] ch₂) k) := by
    intro k
    rw [compareFuc_get, compareFuc_get]
    exact List.Perm.append_left _ (h.filter _)
  constructor
  · intro k hd
    have hs := sortedBucket_eq_of_perm _ _ (hget k) hd
    refine ⟨hs, ?_, ?_⟩
    · unfold candidates
      rw [hs]
    · unfold survivor
      rw [hs]
  · intro k r hr hold
    refine ⟨(survivor_of_strictly_oldest _ r hr hold).1, ?_⟩
    apply (survivor_of_strictly_oldest _ r ((hget k).mem_iff.1 hr) ?_).1
    intro x hx
    exact hold x (((hget k).erase r).mem_iff.2 hx)

/-- C2: simulation mode removes nothing. For every map `dupFiles` and every state of disk,
remove calls and log, the resolution loop run with `dryRun = true` calls `os.Remove` on no
path and leaves the disk as it was, whatever the number and size of the buckets. Hence
every run of `main` with `dryRun = true` that reaches the resolution loop ends with the
disk it started with and without a single call of `os.Remove`. -/
theorem C2_dry_run_removes_nothing (dupFiles : DupIndex) (w : World) :
    (resolutionPass true dupFiles w).removeCalls = w.removeCalls ∧
    (resolutionPass true dupFiles w).disk = w.disk ∧
    (∀ (md5hex : List Nat → String) (sched : Sched) (verbose : Bool) (workerCount : Int)
      (walk : List WalkItem) (disk : Disk) (idx : DupIndex) (w' : World),
      mainRun md5hex sched true verbose workerCount walk disk = Outcome.completed idx w' →
        w'.removeCalls = [] ∧ w'.disk = disk) := by
  refine ⟨?_, resolutionPass_dry_disk dupFiles w, ?_⟩
  · rw [resolutionPass_removeCalls]
    simp
  · intro md5hex sched verbose workerCount walk disk idx w' h
    obtain ⟨sent, _, _, hw⟩ := mainRun_completed md5hex sched true verbose workerCount walk disk idx w' h
    rw [hw, resolutionPass_removeCalls, resolutionPass_dry_disk]
    simp

/-- C3: the digest worker forwards a record exactly when its file opens and is read to the
end. One loop iteration of `digestFunc` appends to `out` the record with its `md5` field
set to the hex digest of the bytes read when `os.Open` and `io.Copy` both succeed, whatever
the declared size, and appends nothing otherwise. Hence, for every order in which the
forwarded records arrive at the aggregator, every record in a bucket, and so every deletion
candidate, opened and was read to the end and carries the digest of the bytes read; a path
whose open or read fails is in no bucket and among no candidates; and in a completed run of
`main`, `os.Remove` is called only on paths that opened and were read to the end. -/
theorem C3_forward_iff_digested (md5hex : List Nat → String) (verbose : Bool) (disk : Disk) :
    (∀ (w : Worker) (f : FileID),
      (digestStep md5hex verbose disk w f).out =
        match osOpen disk f.path with
        | some d => if d.readErr then w.out else w.out ++ [{ f with md5 := md5hex d.content }]
        | none => w.out) ∧
    (∀ (w : Worker) (f : FileID),
      (digestStep md5hex verbose disk w f).out ≠ w.out ↔
        ∃ d, osOpen disk f.path = some d ∧ d.readErr = false) ∧
    (∀ (sent arrival : List FileID),
      arrival.Perm (digestFunc md5hex verbose disk Worker.start sent).out →
      ∀ (k : String),
        (∀ r ∈ mapGet (compareFuc [] arrival) k, ∃ f ∈ sent, ∃ d,
          osOpen disk f.path = some d ∧ d.readErr = false ∧
            r = { f with md5 := md5hex d.content }) ∧
        (∀ r ∈ candidates (mapGet (compareFuc [] arrival) k), ∃ f ∈ sent, ∃ d,
          osOpen disk f.path = some d ∧ d.readErr = false ∧
            r = { f with md5 := md5hex d.content }) ∧
        (∀ p : String, (osOpen disk p = none ∨ ∃ d, osOpen disk p = some d ∧ d.readErr = true) →
          (∀ r ∈ mapGet (compareFuc [] arrival) k, r.path ≠ p) ∧
          (∀ r ∈ candidates (mapGet (compareFuc [] arrival) k), r.path ≠ p))) ∧
    (∀ (sched : Sched), sched.Fair → ∀ (dryRun : Bool) (workerCount : Int)
      (walk : List WalkItem) (idx : DupIndex) (w : World),
      mainRun md5hex sched dryRun verbose workerCount walk disk = Outcome.completed idx w →
        ∀ p ∈ w.removeCalls, ∃ d, osOpen disk p = some d ∧ d.readErr = false) := by
  have hstep : ∀ (w : Worker) (f : FileID),
      (digestStep md5hex verbose disk w f).out =
        match osOpen disk f.path with
        | some d => if d.readErr then w.out else w.out ++ [{ f with md5 := md5hex d.content }]
        | none => w.out := by
    intro w f
    rw [digestStep_out]
    unfold forwarded
    cases hopen : osOpen disk f.path with
    | none => simp
    | some d => by_cases hr : d.readErr = true <;> simp [hr]
  have hbucket : ∀ (sent arrival : List FileID),
      arrival.Perm (digestFunc md5hex verbose disk Worker.start sent).out →
      ∀ (k : String), ∀ r ∈ mapGet (compareFuc [] arrival) k, ∃ f ∈ sent, ∃ d,
          osOpen disk f.path = some d ∧ d.readErr = false ∧
            r = { f with md5 := md5hex d.content } :=
    fun sent arrival h k r hr => bucket_forwarded md5hex verbose disk sent arrival h k r hr
  have hpath : ∀ (sent : List FileID) (r : FileID) (p : String),
      (∃ f ∈ sent, ∃ d, osOpen disk f.path = some d ∧ d.readErr = false ∧
        r = { f with md5 := md5hex d.content }) →
      (osOpen disk p = none ∨ ∃ d, osOpen disk p = some d ∧ d.readErr = true) → r.path ≠ p := by
    rintro sent r p ⟨f, _, d, hd, hdr, hrf⟩ hp hc
    have hrp : r.path = f.path := by rw [hrf]
    rw [← hc, hrp, hd] at hp
    rcases hp with hp | ⟨d', hd', hdr'⟩
    · cases hp
    · rw [← Option.some.inj hd', hdr] at hdr'
      cases hdr'
  refine ⟨hstep, ?_, ?_, ?_⟩
  · intro w f
    rw [hstep]
    cases hopen : osOpen disk f.path with
    | none => simp
    | some d => by_cases hr : d.readErr = true <;> simp [hr]
  · intro sent arrival h k
    refine ⟨hbucket sent arrival h k, ?_, ?_⟩
    · intro r hr
      exact hbucket sent arrival h k r (candidates_subset _ r hr)
    · intro p hp
      refine ⟨fun r hr => hpath sent r p (hbucket sent arrival h k r hr) hp, ?_⟩
      intro r hr
      exact hpath sent r p (hbucket sent arrival h k r (candidates_subset _ r hr)) hp
  · intro sched hfair dryRun workerCount walk idx w h p hp
    obtain ⟨sent, _, hidx, hw⟩ := mainRun_completed md5hex sched dryRun verbose workerCount walk disk idx w h
    rw [hw, resolutionPass_removeCalls] at hp
    cases dryRun with
    | true => simp at hp
    | false =>
      simp only [List.nil_append, Bool.false_eq_true, if_false, List.mem_map] at hp
      obtain ⟨r, hr, hrp⟩ := hp
      unfold allCandidates at hr
      obtain ⟨e, he, hre⟩ := List.mem_flatMap.1 hr
      have he' : e ∈ idx := (hfair.2 idx).mem_iff.1 he
      rw [hidx] at he'
      have hent := (compareFuc_entry _ e he').1
      rw [hent] at hre
      obtain ⟨f, _, d, hd, hdr, hrf⟩ := hbucket sent _ (hfair.1 _) e.1 r (candidates_subset _ r hre)
      refine ⟨d, ?_, hdr⟩
      rw [← hrp, hrf]
      exact hd

/-- C7, at the failing input: a worker that receives the record of `bad.txt`, which opens
and whose read fails, and then the record of `a.txt`, has moved on and forwarded `a.txt`
while the handle opened for `bad.txt` (handle 0) is still open; it stays open when the worker
returns. The handle of `a.txt` (handle 1) is closed, and for a file that does not open no
handle exists. -/
theorem C7_read_failure_leaks_handle :
    (digestStep toyMd5 false [fileBad, fileA] Worker.start (walkRecord fileBad)).openFiles = [0] ∧
    (digestFunc toyMd5 false [fileBad, fileA] Worker.start
      [walkRecord fileBad, walkRecord fileA]).openFiles = [0] ∧
    (digestFunc toyMd5 false [fileBad, fileA] Worker.start
      [walkRecord fileBad, walkRecord fileA]).out = [digested toyMd5 fileA] ∧
    (digestFunc toyMd5 false [fileBad, fileA] Worker.start
      [walkRecord fileC, walkRecord fileA]).openFiles = [] := by
  decide

/-- C8, at the failing inputs: the walk callback never returns an error, so `main` never
takes the early return that logs `walk error`. When the walk reports a directory it cannot
list, the run goes on: in apply mode `b.txt` is removed and the deletion is reported. When
the root does not exist, the callback dereferences the nil `FileInfo` and the program
panics. -/
theorem C8_walk_error_not_propagated :
    (∀ (md5hex : List Nat → String) (sched : Sched) (dryRun verbose : Bool) (workerCount : Int)
      (walk : List WalkItem) (disk : Disk) (err : String),
      mainRun md5hex sched dryRun verbose workerCount walk disk ≠ Outcome.walkError err) ∧
    mainRun toyMd5 Sched.inOrder false false 2 walkUnreadableDir [fileA, fileB] =
      Outcome.completed [("58", [digested toyMd5 fileA, digested toyMd5 fileB])]
        { disk := [fileA], removeCalls := ["b.txt"],
          log := [LogLine.delete "58" "b.txt" 2] } ∧
    mainRun toyMd5 Sched.inOrder false false 2 walkMissingRoot [] = Outcome.panicked :=
  ⟨mainRun_never_walkError, by decide, by decide⟩

/-- C5: idempotence in apply mode. On a disk whose paths are pairwise distinct and on which
no open, read or removal fails, take any two runs of `main` with `dryRun = false`, under any
schedules, the second over the disk the first one leaves. The first run completes when it
has a digest goroutine, and so does the second. Whenever both complete, every bucket of the
second run holds exactly one record, the second run calls `os.Remove` on no path, leaves the
disk as the first run left it, and logs no deletion. -/
theorem C5_apply_idempotent (md5hex : List Nat → String) (s₁ s₂ : Sched)
    (hs₁ : s₁.Fair) (hs₂ : s₂.Fair) (v₁ v₂ : Bool) (n₁ n₂ : Int) (root : String) (disk : Disk)
    (hpaths : (disk.map (fun d => d.path)).Nodup)
    (hok : ∀ d ∈ disk, d.openErr = false ∧ d.readErr = false ∧ d.removeErr = false) :
    (0 < n₁ → ∃ idx₁ w₁,
      mainRun md5hex s₁ false v₁ n₁ (walkOf root disk) disk = Outcome.completed idx₁ w₁) ∧
    ∀ idx₁ w₁,
      mainRun md5hex s₁ false v₁ n₁ (walkOf root disk) disk = Outcome.completed idx₁ w₁ →
      (0 < n₂ → ∃ idx₂ w₂,
        mainRun md5hex s₂ false v₂ n₂ (walkOf root w₁.disk) w₁.disk =
          Outcome.completed idx₂ w₂) ∧
      ∀ idx₂ w₂,
        mainRun md5hex s₂ false v₂ n₂ (walkOf root w₁.disk) w₁.disk =
          Outcome.completed idx₂ w₂ →
        (∀ e ∈ idx₂, e.2.length = 1) ∧ w₂.removeCalls = [] ∧ w₂.disk = w₁.disk ∧
          (∀ line ∈ w₂.log, line.isDelete = false) := by
  constructor
  · intro hn
    exact mainRun_of_walk md5hex s₁ false v₁ n₁ _ disk _ (walkOf_returned n₁ root disk (Or.inl hn))
  · intro idx₁ w₁ h₁
    obtain ⟨sent₁, hwalk₁, hidx₁, hw₁⟩ := mainRun_completed md5hex s₁ false v₁ n₁ _ disk idx₁ w₁ h₁
    have hsent₁ := walkOf_sent n₁ root disk sent₁ hwalk₁
    subst hsent₁
    rw [digestFunc_good md5hex v₁ disk hpaths hok] at hidx₁
    have hdisk₁ : w₁.disk = disk.filter
        (fun e => decide (e.path ∉ (allCandidates (s₁.range idx₁)).map (fun f => f.path))) := by
      rw [hw₁]
      exact resolutionPass_apply_disk _ _ (fun d hd => (hok d hd).2.2)
    have hsub : ∀ d ∈ w₁.disk, d ∈ disk := by
      intro d hd
      rw [hdisk₁] at hd
      exact (List.mem_filter.1 hd).1
    have hpaths₁ : (w₁.disk.map (fun d => d.path)).Nodup := by
      rw [hdisk₁]
      exact hpaths.sublist ((List.filter_sublist disk).map _)
    have hok₁ : ∀ d ∈ w₁.disk, d.openErr = false ∧ d.readErr = false ∧ d.removeErr = false :=
      fun d hd => hok d (hsub d hd)
    constructor
    · intro hn
      exact mainRun_of_walk md5hex s₂ false v₂ n₂ _ w₁.disk _
        (walkOf_returned n₂ root w₁.disk (Or.inl hn))
    · intro idx₂ w₂ h₂
      obtain ⟨sent₂, hwalk₂, hidx₂, hw₂⟩ :=
        mainRun_completed md5hex s₂ false v₂ n₂ _ w₁.disk idx₂ w₂ h₂
      have hsent₂ := walkOf_sent n₂ root w₁.disk sent₂ hwalk₂
      subst hsent₂
      rw [digestFunc_good md5hex v₂ w₁.disk hpaths₁ hok₁] at hidx₂
      have hsingle : ∀ e ∈ idx₂, e.2.length = 1 := by
        intro e he
        rw [hidx₂] at he
        obtain ⟨_, hfil, hne⟩ := compareFuc_entry _ e he
        have hperm : e.2.Perm
            ((w₁.disk.map (digested md5hex)).filter (fun r => decide (r.md5 = e.1))) := by
          rw [hfil]
          exact (hs₂.1 _).filter _
        have hle : ((w₁.disk.map (digested md5hex)).filter
            (fun r => decide (r.md5 = e.1))).length ≤ 1 := by
          rw [hdisk₁]
          apply survivors_distinct md5hex disk hpaths (s₁.arrival (disk.map (digested md5hex)))
            (hs₁.1 _) (s₁.range idx₁)
          rw [← hidx₁]
          exact hs₁.2 idx₁
        have hpos : 0 < e.2.length := List.length_pos.2 hne
        rw [hperm.length_eq] at hpos ⊢
        omega
      have hw₂' := resolutionPass_all_single false (s₂.range idx₂)
        { disk := w₁.disk, removeCalls := [],
          log := (if false then [LogLine.dryRunMode] else []) ++
            (digestFunc md5hex v₂ w₁.disk Worker.start (w₁.disk.map walkRecord)).log ++
            (if v₂ then [LogLine.digestDone] else []) ++
            (if v₂ then [LogLine.compareDone] else []) }
        (fun e he => hsingle e ((hs₂.2 idx₂).mem_iff.1 he))
      rw [hw₂'] at hw₂
      refine ⟨hsingle, ?_, ?_, ?_⟩
      · rw [hw₂]
      · rw [hw₂]
      · rw [hw₂]
        intro line hl
        have hpool := digestFunc_log md5hex v₂ w₁.disk Worker.start (w₁.disk.map walkRecord)
          (by intro l hl'; simp [Worker.start] at hl')
        simp only [Bool.false_eq_true, if_false, List.nil_append, List.mem_append] at hl
        rcases hl with (hl | hl) | hl
        · exact hpool line hl
        · cases v₂ <;> simp at hl
          rw [hl]; rfl
        · cases v₂ <;> simp at hl
          rw [hl]; rfl

/-- Witness of C9 on a bucket with a tie: `b.txt` and `bad.txt` arrive before `a.txt`. -/
theorem C9_sort_step_witness :
    (sortedBucket [digested toyMd5 fileB, digested toyMd5 fileBad, digested toyMd5 fileA]).Perm
        [digested toyMd5 fileB, digested toyMd5 fileBad, digested toyMd5 fileA] ∧
      (sortedBucket [digested toyMd5 fileB, digested toyMd5 fileBad, digested toyMd5 fileA]).Pairwise
        (fun a b => b.modTime ≤ a.modTime) :=
  ⟨(C9_sort_step [digested toyMd5 fileB, digested toyMd5 fileBad, digested toyMd5 fileA]).1,
    (C9_sort_step [digested toyMd5 fileB, digested toyMd5 fileBad, digested toyMd5 fileA]).2.1⟩

/-- Witness of C1, the scenario of the specification: of `a.txt` (time 1) and `b.txt`
(time 2) with equal digests, `b.txt` is the only candidate and `a.txt` survives. -/
theorem C1_resolution_keeps_oldest_witness :
    2 ≤ [digested toyMd5 fileA, digested toyMd5 fileB].length ∧
      survivor [digested toyMd5 fileA, digested toyMd5 fileB] = some (digested toyMd5 fileA) ∧
      digested toyMd5 fileA ∉ candidates [digested toyMd5 fileA, digested toyMd5 fileB] ∧
      digested toyMd5 fileB ∈ candidates [digested toyMd5 fileA, digested toyMd5 fileB] ∧
      (candidates [digested toyMd5 fileA, digested toyMd5 fileB]).length = 1 := by
  have h2 : 2 ≤ [digested toyMd5 fileA, digested toyMd5 fileB].length := by decide
  obtain ⟨s, hs, _, hlen, _, hnew, hold, _⟩ :=
    (C1_resolution_keeps_oldest [digested toyMd5 fileA, digested toyMd5 fileB]).2 h2
  have hA := hold (digested toyMd5 fileA) (by decide) (by decide)
  have hB := hnew (digested toyMd5 fileB) (by decide) ⟨digested toyMd5 fileA, by decide, by decide⟩
  exact ⟨h2, by rw [hs, hA.1], hA.2, hB, hlen⟩

/-- Witness of C6 on three received records, two of them of one digest. -/
theorem C6_aggregator_invariant_witness :
    mapGet (compareFuc [] [digested toyMd5 fileA, digested toyMd5 fileC, digested toyMd5 fileB]) "58" =
        [digested toyMd5 fileA, digested toyMd5 fileB] ∧
      totalRecords
        (compareFuc [] [digested toyMd5 fileA, digested toyMd5 fileC, digested toyMd5 fileB]) = 3 :=
  ⟨((C6_aggregator_invariant
      [digested toyMd5 fileA, digested toyMd5 fileC, digested toyMd5 fileB]).2.1 "58").trans
      (by decide),
    (C6_aggregator_invariant
      [digested toyMd5 fileA, digested toyMd5 fileC, digested toyMd5 fileB]).2.2.2.2.2.2⟩

/-- Witness of C4 on two arrival orders of three records. -/
theorem C4_grouping_order_independent_witness :
    [digested toyMd5 fileA, digested toyMd5 fileC, digested toyMd5 fileB].Perm
        [digested toyMd5 fileB, digested toyMd5 fileC, digested toyMd5 fileA] ∧
      (mapGet (compareFuc [] [digested toyMd5 fileA, digested toyMd5 fileC, digested toyMd5 fileB])
        "58").Perm
        (mapGet (compareFuc [] [digested toyMd5 fileB, digested toyMd5 fileC, digested toyMd5 fileA])
          "58") ∧
      (mapKeys (compareFuc [] [digested toyMd5 fileA, digested toyMd5 fileC, digested toyMd5 fileB])).Perm
        (mapKeys (compareFuc [] [digested toyMd5 fileB, digested toyMd5 fileC, digested toyMd5 fileA])) :=
  have h : [digested toyMd5 fileA, digested toyMd5 fileC, digested toyMd5 fileB].Perm
      [digested toyMd5 fileB, digested toyMd5 fileC, digested toyMd5 fileA] := by decide
  ⟨h, (C4_grouping_order_independent _ _ h).2.2.1 "58", (C4_grouping_order_independent _ _ h).2.1⟩

/-- Witness of C10 on two arrival orders of three records with distinct times. -/
theorem C10_outcome_deterministic_witness :
    [digested toyMd5 fileA, digested toyMd5 fileC, digested toyMd5 fileB].Perm
        [digested toyMd5 fileB, digested toyMd5 fileC, digested toyMd5 fileA] ∧
      candidates
          (mapGet (compareFuc [] [digested toyMd5 fileA, digested toyMd5 fileC, digested toyMd5 fileB])
            "58") =
        candidates
          (mapGet (compareFuc [] [digested toyMd5 fileB, digested toyMd5 fileC, digested toyMd5 fileA])
            "58") ∧
      survivor
          (mapGet (compareFuc [] [digested toyMd5 fileB, digested toyMd5 fileC, digested toyMd5 fileA])
            "58") = some (digested toyMd5 fileA) :=
  have h : [digested toyMd5 fileA, digested toyMd5 fileC, digested toyMd5 fileB].Perm
      [digested toyMd5 fileB, digested toyMd5 fileC, digested toyMd5 fileA] := by decide
  ⟨h, ((C10_outcome_deterministic _ _ h).1 "58" (by decide)).2.1,
    ((C10_outcome_deterministic _ _ h).2 "58" (digested toyMd5 fileA) (by decide) (by decide)).2⟩

/-- Witness of C2: a dry run over a bucket of two leaves both files on disk. -/
theorem C2_dry_run_removes_nothing_witness :
    (resolutionPass true [("58", [digested toyMd5 fileA, digested toyMd5 fileB])]
        { disk := [fileA, fileB], removeCalls := [], log := [] }).removeCalls = [] ∧
      (resolutionPass true [("58", [digested toyMd5 fileA, digested toyMd5 fileB])]
        { disk := [fileA, fileB], removeCalls := [], log := [] }).disk = [fileA, fileB] :=
  ⟨(C2_dry_run_removes_nothing [("58", [digested toyMd5 fileA, digested toyMd5 fileB])]
      { disk := [fileA, fileB], removeCalls := [], log := [] }).1,
    (C2_dry_run_removes_nothing [("58", [digested toyMd5 fileA, digested toyMd5 fileB])]
      { disk := [fileA, fileB], removeCalls := [], log := [] }).2.1⟩

/-- Witness of C3: `bad.txt` has the content of `a.txt` and `b.txt`, opens, and fails to
read; it is not in their bucket, whatever digest it would have carried. -/
theorem C3_forward_iff_digested_witness :
    [digested toyMd5 fileB, digested toyMd5 fileA].Perm
        (digestFunc toyMd5 false [fileBad, fileA, fileB] Worker.start
          [walkRecord fileBad, walkRecord fileA, walkRecord fileB]).out ∧
      osOpen [fileBad, fileA, fileB] "bad.txt" = some fileBad ∧ fileBad.readErr = true ∧
      digested toyMd5 fileBad ∉
        mapGet (compareFuc [] [digested toyMd5 fileB, digested toyMd5 fileA]) "58" := by
  have h : [digested toyMd5 fileB, digested toyMd5 fileA].Perm
      (digestFunc toyMd5 false [fileBad, fileA, fileB] Worker.start
        [walkRecord fileBad, walkRecord fileA, walkRecord fileB]).out := by decide
  have hbad : osOpen [fileBad, fileA, fileB] "bad.txt" = some fileBad := by decide
  refine ⟨h, hbad, rfl, ?_⟩
  intro hmem
  exact (((C3_forward_iff_digested toyMd5 false [fileBad, fileA, fileB]).2.2.1
    [walkRecord fileBad, walkRecord fileA, walkRecord fileB]
    [digested toyMd5 fileB, digested toyMd5 fileA] h "58").2.2 "bad.txt"
    (Or.inr ⟨fileBad, hbad, rfl⟩)).1 (digested toyMd5 fileBad) hmem rfl

/-- Witness of C5: the first apply run over `a.txt`, `b.txt`, `c.txt` removes `b.txt`; the
second run over `a.txt` and `c.txt` removes nothing. -/
theorem C5_apply_idempotent_witness :
    Sched.inOrder.Fair ∧
      mainRun toyMd5 Sched.inOrder false false 2 (walkOf "." [fileA, fileB, fileC])
          [fileA, fileB, fileC] =
        Outcome.completed
          [("58", [digested toyMd5 fileA, digested toyMd5 fileB]), ("59", [digested toyMd5 fileC])]
          { disk := [fileA, fileC], removeCalls := ["b.txt"],
            log := [LogLine.delete "58" "b.txt" 2] } ∧
      mainRun toyMd5 Sched.inOrder false false 2 (walkOf "." [fileA, fileC]) [fileA, fileC] =
        Outcome.completed [("58", [digested toyMd5 fileA]), ("59", [digested toyMd5 fileC])]
          { disk := [fileA, fileC], removeCalls := [], log := [] } ∧
      ({ disk := [fileA, fileC], removeCalls := [], log := [] } : World).removeCalls = [] := by
  have hfair : Sched.inOrder.Fair := ⟨fun l => List.Perm.refl l, fun m => List.Perm.refl m⟩
  have h₁ : mainRun toyMd5 Sched.inOrder false false 2 (walkOf "." [fileA, fileB, fileC])
      [fileA, fileB, fileC] =
      Outcome.completed
        [("58", [digested toyMd5 fileA, digested toyMd5 fileB]), ("59", [digested toyMd5 fileC])]
        { disk := [fileA, fileC], removeCalls := ["b.txt"],
          log := [LogLine.delete "58" "b.txt" 2] } := by decide
  have h₂ : mainRun toyMd5 Sched.inOrder false false 2 (walkOf "." [fileA, fileC]) [fileA, fileC] =
      Outcome.completed [("58", [digested toyMd5 fileA]), ("59", [digested toyMd5 fileC])]
        { disk := [fileA, fileC], removeCalls := [], log := [] } := by decide
  have h := ((C5_apply_idempotent toyMd5 Sched.inOrder Sched.inOrder hfair hfair false false 2 2 "."
    [fileA, fileB, fileC] (by decide) (by decide)).2 _ _ h₁).2 _ _ h₂
  exact ⟨hfair, h₁, h₂, h.2.1⟩

end DupDelete
